import Mathlib

/-!
Verification development for the TradeSetup incremental technical-indicator
pipeline.

The definitions below are a shallow embedding of the Python sources:

* `ScriptDataImporterPipeline/TechnicalIndicators.py` — the indicator
  calculator (`calculate_ema`, `calculate_rsi`, `calculate_atr`,
  `calculate_supertrend`, `calculate_obv`, `calculate_ad_line`,
  `calculate_volume_surge`, `calculate_all_indicators`,
  `create_indicators_dataframe`);
* `indicators_pipeline.py` — the incremental sync controller
  (`process_single_symbol`, `update_all_symbols`);
* `ScriptDataImporterPipeline/IndicatorsWriter.py` — the result-sink
  operations (`get_latest_indicators_date`, `fetch_price_data_from_db`,
  `upsert_indicators_data`).

pandas/numpy float64 columns are modelled by the type `FV`: an exact
rational for a finite double (the sources' arithmetic on the inputs we
study is exact, so no rounding model is needed), plus the special values
NaN, +inf and -inf, whose propagation (`fillna`, comparisons, division by
zero, rolling windows with missing values) is part of the source's
observable behaviour.  Dates are modelled as integers (day numbers):
`timedelta(days=k)` is `+ k`.  Symbols/tickers are lists of characters;
Python's `str.replace` is `py_replace`.
-/

/- Batteries marks the `Rat` arithmetic `@[irreducible]` for performance of
`simp`/unification; concrete evaluation by `decide` needs it reducible again
(the kernel checks all of it either way). -/
set_option allowUnsafeReducibility true
attribute [local semireducible] Rat.add Rat.sub Rat.mul Rat.inv

namespace TradeSetup

/-- A pandas/numpy float64 value: NaN, +inf, -inf, or a finite value
modelled as an exact rational. -/
inductive FV where
  | nan : FV
  | pinf : FV
  | ninf : FV
  | fin : ℚ → FV
deriving DecidableEq

instance : Inhabited FV := ⟨FV.nan⟩

/-- `pd.isna` on a float64 value. -/
def isNan : FV → Bool
  | FV.nan => true
  | _ => false

/-- The value is finite (not NaN and not ±inf). -/
def isFin : FV → Bool
  | FV.fin _ => true
  | _ => false

/-- IEEE-754 negation. -/
def fneg : FV → FV
  | FV.nan => FV.nan
  | FV.pinf => FV.ninf
  | FV.ninf => FV.pinf
  | FV.fin q => FV.fin (-q)

/-- IEEE-754 absolute value (`np.abs`). -/
def fabs : FV → FV
  | FV.nan => FV.nan
  | FV.pinf => FV.pinf
  | FV.ninf => FV.pinf
  | FV.fin q => FV.fin |q|

/-- IEEE-754 addition on exact values. -/
def fadd : FV → FV → FV
  | FV.nan, _ => FV.nan
  | _, FV.nan => FV.nan
  | FV.pinf, FV.ninf => FV.nan
  | FV.ninf, FV.pinf => FV.nan
  | FV.pinf, _ => FV.pinf
  | FV.ninf, _ => FV.ninf
  | FV.fin _, FV.pinf => FV.pinf
  | FV.fin _, FV.ninf => FV.ninf
  | FV.fin a, FV.fin b => FV.fin (a + b)

/-- IEEE-754 subtraction, `a - b = a + (-b)`. -/
def fsub (a b : FV) : FV := fadd a (fneg b)

/-- IEEE-754 multiplication on exact values (`inf * 0 = NaN`). -/
def fmul : FV → FV → FV
  | FV.nan, _ => FV.nan
  | _, FV.nan => FV.nan
  | FV.fin a, FV.fin b => FV.fin (a * b)
  | FV.pinf, FV.pinf => FV.pinf
  | FV.pinf, FV.ninf => FV.ninf
  | FV.ninf, FV.pinf => FV.ninf
  | FV.ninf, FV.ninf => FV.pinf
  | FV.pinf, FV.fin b => if 0 < b then FV.pinf else if b < 0 then FV.ninf else FV.nan
  | FV.ninf, FV.fin b => if 0 < b then FV.ninf else if b < 0 then FV.pinf else FV.nan
  | FV.fin a, FV.pinf => if 0 < a then FV.pinf else if a < 0 then FV.ninf else FV.nan
  | FV.fin a, FV.ninf => if 0 < a then FV.ninf else if a < 0 then FV.pinf else FV.nan

/-- IEEE-754 division on exact values: `x/0` is ±inf for `x ≠ 0` and NaN
for `x = 0`; `finite/±inf = 0`; `inf/inf = NaN`.  This is what
numpy/pandas float division produces. -/
def fdiv : FV → FV → FV
  | FV.nan, _ => FV.nan
  | _, FV.nan => FV.nan
  | FV.fin a, FV.fin b =>
    if b = 0 then (if 0 < a then FV.pinf else if a < 0 then FV.ninf else FV.nan)
    else FV.fin (a / b)
  | FV.fin _, FV.pinf => FV.fin 0
  | FV.fin _, FV.ninf => FV.fin 0
  | FV.pinf, FV.fin b => if b < 0 then FV.ninf else FV.pinf
  | FV.ninf, FV.fin b => if b < 0 then FV.pinf else FV.ninf
  | _, _ => FV.nan

/-- IEEE-754 `<`: any comparison involving NaN is false. -/
def flt : FV → FV → Bool
  | FV.nan, _ => false
  | _, FV.nan => false
  | FV.pinf, _ => false
  | FV.ninf, FV.ninf => false
  | FV.ninf, _ => true
  | FV.fin _, FV.pinf => true
  | FV.fin _, FV.ninf => false
  | FV.fin a, FV.fin b => decide (a < b)

/-- IEEE-754 `≤`: any comparison involving NaN is false. -/
def fle : FV → FV → Bool
  | FV.nan, _ => false
  | _, FV.nan => false
  | FV.ninf, _ => true
  | FV.pinf, FV.pinf => true
  | FV.pinf, _ => false
  | FV.fin _, FV.pinf => true
  | FV.fin _, FV.ninf => false
  | FV.fin a, FV.fin b => decide (a ≤ b)

/-- IEEE-754 `>` as used by pandas (`a > b` iff `b < a`; NaN yields false). -/
def fgt (a b : FV) : Bool := flt b a

/-- IEEE-754 `≥` as used by pandas (NaN yields false). -/
def fge (a b : FV) : Bool := fle b a

/-- `np.maximum`: NaN-propagating elementwise maximum. -/
def fmax : FV → FV → FV
  | FV.nan, _ => FV.nan
  | _, FV.nan => FV.nan
  | FV.pinf, _ => FV.pinf
  | _, FV.pinf => FV.pinf
  | FV.ninf, b => b
  | a, FV.ninf => a
  | FV.fin a, FV.fin b => FV.fin (max a b)

@[simp] theorem fadd_fin_fin (a b : ℚ) : fadd (FV.fin a) (FV.fin b) = FV.fin (a + b) := rfl

@[simp] theorem fsub_fin_fin (a b : ℚ) : fsub (FV.fin a) (FV.fin b) = FV.fin (a - b) := by
  simp [fsub, fneg, fadd]; ring

@[simp] theorem fmul_fin_fin (a b : ℚ) : fmul (FV.fin a) (FV.fin b) = FV.fin (a * b) := rfl

@[simp] theorem fneg_fin (a : ℚ) : fneg (FV.fin a) = FV.fin (-a) := rfl

@[simp] theorem fabs_fin (a : ℚ) : fabs (FV.fin a) = FV.fin |a| := rfl

@[simp] theorem fmax_fin_fin (a b : ℚ) : fmax (FV.fin a) (FV.fin b) = FV.fin (max a b) := rfl

@[simp] theorem fadd_nan_left (a : FV) : fadd FV.nan a = FV.nan := by cases a <;> rfl

@[simp] theorem fadd_nan_right (a : FV) : fadd a FV.nan = FV.nan := by cases a <;> rfl

@[simp] theorem fsub_nan_right (a : FV) : fsub a FV.nan = FV.nan := by cases a <;> rfl

@[simp] theorem fsub_nan_left (a : FV) : fsub FV.nan a = FV.nan := by cases a <;> rfl

@[simp] theorem fmul_nan_right (a : FV) : fmul a FV.nan = FV.nan := by cases a <;> rfl

@[simp] theorem fmul_nan_left (a : FV) : fmul FV.nan a = FV.nan := by cases a <;> rfl

@[simp] theorem fdiv_nan_right (a : FV) : fdiv a FV.nan = FV.nan := by cases a <;> rfl

@[simp] theorem fdiv_nan_left (a : FV) : fdiv FV.nan a = FV.nan := by cases a <;> rfl

@[simp] theorem fabs_nan : fabs FV.nan = FV.nan := rfl

@[simp] theorem fmax_nan_right (a : FV) : fmax a FV.nan = FV.nan := by cases a <;> rfl

@[simp] theorem fmax_nan_left (a : FV) : fmax FV.nan a = FV.nan := by cases a <;> rfl

@[simp] theorem flt_nan_right (a : FV) : flt a FV.nan = false := by cases a <;> rfl

@[simp] theorem flt_nan_left (a : FV) : flt FV.nan a = false := by cases a <;> rfl

@[simp] theorem fle_nan_right (a : FV) : fle a FV.nan = false := by cases a <;> rfl

@[simp] theorem fle_nan_left (a : FV) : fle FV.nan a = false := by cases a <;> rfl

@[simp] theorem fgt_nan_right (a : FV) : fgt a FV.nan = false := by cases a <;> rfl

@[simp] theorem fgt_nan_left (a : FV) : fgt FV.nan a = false := by cases a <;> rfl

@[simp] theorem isNan_fin (a : ℚ) : isNan (FV.fin a) = false := rfl

@[simp] theorem isFin_fin (a : ℚ) : isFin (FV.fin a) = true := rfl

@[simp] theorem isNan_nan : isNan FV.nan = true := rfl

theorem fdiv_fin_fin (a b : ℚ) (hb : b ≠ 0) :
    fdiv (FV.fin a) (FV.fin b) = FV.fin (a / b) := by
  simp [fdiv, hb]

theorem fdiv_fin_zero_pos (a : ℚ) (ha : 0 < a) :
    fdiv (FV.fin a) (FV.fin 0) = FV.pinf := by
  simp [fdiv, ha]

theorem isFin_fadd {a b : FV} (ha : isFin a = true) (hb : isFin b = true) :
    isFin (fadd a b) = true := by
  cases a <;> cases b <;> simp_all [isFin, fadd]

theorem isFin_fsub {a b : FV} (ha : isFin a = true) (hb : isFin b = true) :
    isFin (fsub a b) = true := by
  cases a <;> cases b <;> simp_all [isFin, fsub, fneg, fadd]

theorem isFin_fmul {a b : FV} (ha : isFin a = true) (hb : isFin b = true) :
    isFin (fmul a b) = true := by
  cases a <;> cases b <;> simp_all [isFin, fmul]

theorem isFin_fabs {a : FV} (ha : isFin a = true) : isFin (fabs a) = true := by
  cases a <;> simp_all [isFin, fabs]

theorem isFin_fmax {a b : FV} (ha : isFin a = true) (hb : isFin b = true) :
    isFin (fmax a b) = true := by
  cases a <;> cases b <;> simp_all [isFin, fmax]

theorem isFin_exists {a : FV} (ha : isFin a = true) : ∃ q : ℚ, a = FV.fin q := by
  cases a <;> simp_all [isFin]

theorem isNan_eq_false_of_isFin {a : FV} (ha : isFin a = true) : isNan a = false := by
  cases a <;> simp_all [isFin, isNan]

/-! ### pandas Series primitives

A pandas Series of float64 cells is a `List FV`; positional access
`s.iloc[i]` is `seriesOf s i`.  The sources only access valid positions,
so the out-of-range default never matters for the mapped outputs. -/

/-- Positional view of a Series. -/
def seriesOf (xs : List FV) : ℕ → FV := fun i => xs.getD i FV.nan

/-- `series.diff()`: NaN at index 0, successive differences after. -/
def diffAt (x : ℕ → FV) : ℕ → FV
  | 0 => FV.nan
  | i + 1 => fsub (x (i + 1)) (x i)

/-- `series.shift()`: previous element, NaN at index 0. -/
def shiftAt (x : ℕ → FV) : ℕ → FV
  | 0 => FV.nan
  | i + 1 => x i

/-- The window `[lo, lo+n)` of an index function, as a list. -/
def windowL (f : ℕ → FV) (lo n : ℕ) : List FV :=
  (List.range n).map (fun t => f (lo + t))

/-- Sum of a window of cells. -/
def fsum (l : List FV) : FV := l.foldl fadd (FV.fin 0)

/-- `series.rolling(window=n).mean()` at index `i`.  With the default
`min_periods = n` the output is NaN while fewer than `n` rows exist and
whenever the size-`n` window contains a NaN cell; otherwise it is the
window mean. -/
def rollAt (n : ℕ) (f : ℕ → FV) (i : ℕ) : FV :=
  if i + 1 < n then FV.nan
  else if (windowL f (i + 1 - n) n).any (fun v => isNan v) then FV.nan
  else fdiv (fsum (windowL f (i + 1 - n) n)) (FV.fin (n : ℚ))

/-- One step of `ewm(span=s, adjust=False).mean()` with `a = 2/(s+1)`:
a NaN observation carries the previous mean forward; the first non-NaN
observation seeds the mean; afterwards `y = (1-a)·y_prev + a·x`. -/
def ewm_step (a : ℚ) (prev xi : FV) : FV :=
  if isNan xi then prev
  else if isNan prev then xi
  else fadd (fmul (FV.fin (1 - a)) prev) (fmul (FV.fin a) xi)

/-- The ewm running mean after processing index `i`. -/
def ewmState (a : ℚ) (x : ℕ → FV) : ℕ → FV
  | 0 => x 0
  | i + 1 => ewm_step a (ewmState a x i) (x (i + 1))

/-! ### TechnicalIndicators.py -/

/-- `calculate_ema` (TechnicalIndicators.py:26-37):
`prices.ewm(span=period, adjust=False).mean()`; the smoothing factor for
`span=period` is `α = 2 / (period + 1)`. -/
def calculate_ema (prices : List FV) (period : ℕ) : List FV :=
  (List.range prices.length).map (ewmState (2 / (period + 1 : ℚ)) (seriesOf prices))

/-- `gains = delta.where(delta > 0, 0)` at index `i`
(TechnicalIndicators.py:52). -/
def rsi_gain (x : ℕ → FV) (i : ℕ) : FV :=
  if fgt (diffAt x i) (FV.fin 0) then diffAt x i else FV.fin 0

/-- `losses = -delta.where(delta < 0, 0)` at index `i`
(TechnicalIndicators.py:53). -/
def rsi_loss (x : ℕ → FV) (i : ℕ) : FV :=
  fneg (if flt (diffAt x i) (FV.fin 0) then diffAt x i else FV.fin 0)

/-- The RSI cell at index `i`:
`rs = avg_gains / avg_losses`, `rsi = 100 - 100/(1+rs)`
(TechnicalIndicators.py:55-59). -/
def rsiAt (x : ℕ → FV) (period : ℕ) (i : ℕ) : FV :=
  fsub (FV.fin 100)
    (fdiv (FV.fin 100)
      (fadd (FV.fin 1)
        (fdiv (rollAt period (rsi_gain x) i) (rollAt period (rsi_loss x) i))))

/-- `calculate_rsi` (TechnicalIndicators.py:40-61). -/
def calculate_rsi (prices : List FV) (period : ℕ) : List FV :=
  (List.range prices.length).map (rsiAt (seriesOf prices) period)

/-- The true-range cell
`max(high-low, |high-prev_close|, |low-prev_close|)`
(TechnicalIndicators.py:77-82); row 0 is NaN because `close.shift()` has
no previous close there. -/
def trAt (high low close : ℕ → FV) (i : ℕ) : FV :=
  fmax (fsub (high i) (low i))
    (fmax (fabs (fsub (high i) (shiftAt close i)))
      (fabs (fsub (low i) (shiftAt close i))))

/-- The ATR cell: rolling mean of the true range. -/
def atrAt (high low close : ℕ → FV) (period : ℕ) (i : ℕ) : FV :=
  rollAt period (trAt high low close) i

/-- `calculate_atr` (TechnicalIndicators.py:64-85). -/
def calculate_atr (high low close : List FV) (period : ℕ) : List FV :=
  (List.range high.length).map (atrAt (seriesOf high) (seriesOf low) (seriesOf close) period)

/-- Raw upper band `(high+low)/2 + multiplier*atr`
(TechnicalIndicators.py:104-107). -/
def st_upperAt (high low close : ℕ → FV) (period : ℕ) (mult : ℚ) (i : ℕ) : FV :=
  fadd (fdiv (fadd (high i) (low i)) (FV.fin 2))
    (fmul (FV.fin mult) (atrAt high low close period i))

/-- Raw lower band `(high+low)/2 - multiplier*atr`
(TechnicalIndicators.py:108). -/
def st_lowerAt (high low close : ℕ → FV) (period : ℕ) (mult : ℚ) (i : ℕ) : FV :=
  fsub (fdiv (fadd (high i) (low i)) (FV.fin 2))
    (fmul (FV.fin mult) (atrAt high low close period i))

/-- `final_upper` for row `i ≥ 1` (TechnicalIndicators.py:119-123):
`upper_band[i]` if `upper_band[i] < upper_band[i-1]` or
`close[i-1] > upper_band[i-1]`, else `upper_band[i-1]`. -/
def st_finalUpper (ub cl : ℕ → FV) (i : ℕ) : FV :=
  if flt (ub i) (ub (i - 1)) || fgt (cl (i - 1)) (ub (i - 1)) then ub i else ub (i - 1)

/-- `final_lower` for row `i ≥ 1` (TechnicalIndicators.py:125-129). -/
def st_finalLower (lb cl : ℕ → FV) (i : ℕ) : FV :=
  if fgt (lb i) (lb (i - 1)) || flt (cl (i - 1)) (lb (i - 1)) then lb i else lb (i - 1)

/-- One trend-determination step (TechnicalIndicators.py:131-137), for the
row at index `i ≥ 1` given the stored trend of row `i-1`:
`1` is Uptrend, `-1` is Downtrend. -/
def st_step (ub lb cl : ℕ → FV) (prev : Int) (i : ℕ) : Int :=
  if prev = 1 ∧ fle (cl i) (st_finalLower lb cl i) = true then -1
  else if prev = -1 ∧ fge (cl i) (st_finalUpper ub cl i) = true then 1
  else prev

/-- The stored trend series of the supertrend loop: row 0 is seeded with
Uptrend (`trend.iloc[0] = 1`, TechnicalIndicators.py:117). -/
def st_trend (ub lb cl : ℕ → FV) : ℕ → Int
  | 0 => 1
  | i + 1 => st_step ub lb cl (st_trend ub lb cl i) (i + 1)

/-- The stored supertrend value of row `i`
(TechnicalIndicators.py:115-116 and 139-143): row 0 is seeded with the
raw upper band; later rows store `final_lower` in an Uptrend and
`final_upper` in a Downtrend. -/
def st_valueAt (ub lb cl : ℕ → FV) (i : ℕ) : FV :=
  if i = 0 then ub 0
  else if st_trend ub lb cl i = 1 then st_finalLower lb cl i
  else st_finalUpper ub cl i

/-- `calculate_supertrend` (TechnicalIndicators.py:88-145). -/
def calculate_supertrend (high low close : List FV) (period : ℕ) (mult : ℚ) : List FV :=
  (List.range close.length).map
    (st_valueAt
      (st_upperAt (seriesOf high) (seriesOf low) (seriesOf close) period mult)
      (st_lowerAt (seriesOf high) (seriesOf low) (seriesOf close) period mult)
      (seriesOf close))

/-- One OBV loop step (TechnicalIndicators.py:163-173): NaN price change
keeps the accumulator; positive change adds the volume; negative change
subtracts it; zero change keeps it. -/
def obv_step (acc change vol : FV) : FV :=
  if isNan change then acc
  else if fgt change (FV.fin 0) then fadd acc vol
  else if flt change (FV.fin 0) then fsub acc vol
  else acc

/-- The OBV accumulator after processing row `i` (`obv` starts at 0,
TechnicalIndicators.py:161). -/
def obvAt (close volume : ℕ → FV) : ℕ → FV
  | 0 => obv_step (FV.fin 0) (diffAt close 0) (volume 0)
  | i + 1 => obv_step (obvAt close volume i) (diffAt close (i + 1)) (volume (i + 1))

/-- `calculate_obv` (TechnicalIndicators.py:148-175). -/
def calculate_obv (close volume : List FV) : List FV :=
  (List.range close.length).map (obvAt (seriesOf close) (seriesOf volume))

/-- The money-flow multiplier of one bar after
`mfm = ((close-low)-(high-close))/(high-low); mfm = mfm.fillna(0)`
(TechnicalIndicators.py:192-193).  `fillna` replaces only NaN — the
`0/0` case of a degenerate bar — and leaves ±inf untouched. -/
def ad_mfm (high low close : FV) : FV :=
  if isNan (fdiv (fsub (fsub close low) (fsub high close)) (fsub high low)) then FV.fin 0
  else fdiv (fsub (fsub close low) (fsub high close)) (fsub high low)

/-- Money-flow volume `mfv = mfm * volume` at row `i`
(TechnicalIndicators.py:196). -/
def ad_mfvAt (high low close volume : ℕ → FV) (i : ℕ) : FV :=
  fmul (ad_mfm (high i) (low i) (close i)) (volume i)

/-- Running total of `mfv.cumsum()` after row `i` (pandas `cumsum` skips
NaN cells in the running total). -/
def adState (mfv : ℕ → FV) : ℕ → FV
  | 0 => if isNan (mfv 0) then FV.fin 0 else mfv 0
  | i + 1 => if isNan (mfv (i + 1)) then adState mfv i else fadd (adState mfv i) (mfv (i + 1))

/-- The `cumsum` output cell at row `i`: NaN where the input cell is NaN,
else the running total. -/
def adOut (mfv : ℕ → FV) (i : ℕ) : FV :=
  if isNan (mfv i) then FV.nan else adState mfv i

/-- `calculate_ad_line` (TechnicalIndicators.py:178-201). -/
def calculate_ad_line (high low close volume : List FV) : List FV :=
  (List.range high.length).map
    (adOut (ad_mfvAt (seriesOf high) (seriesOf low) (seriesOf close) (seriesOf volume)))

/-- The volume-surge cell `volume[i] / rolling_mean(volume, n)[i]`
(TechnicalIndicators.py:215-216). -/
def volume_surgeAt (v : ℕ → FV) (period : ℕ) (i : ℕ) : FV :=
  fdiv (v i) (rollAt period v i)

/-- `calculate_volume_surge` (TechnicalIndicators.py:204-218). -/
def calculate_volume_surge (volume : List FV) (period : ℕ) : List FV :=
  (List.range volume.length).map (volume_surgeAt (seriesOf volume) period)

/-! ### Price data and the full indicator frame -/

/-- One row of the price DataFrame / `stock_price_daily` table: a ticker,
a date (day number; `timedelta(days=k)` is `+ k`) and the finite OHLCV
values (`opn` is the `Open` column). -/
structure PriceRow where
  ticker : List Char
  date : ℤ
  opn : ℚ
  high : ℚ
  low : ℚ
  close : ℚ
  volume : ℚ
deriving DecidableEq

instance : Inhabited PriceRow := ⟨⟨[], 0, 0, 0, 0, 0, 0⟩⟩

/-- The `High` column of a price DataFrame. -/
def highs (df : List PriceRow) : List FV := df.map (fun r => FV.fin r.high)

/-- The `Low` column of a price DataFrame. -/
def lows (df : List PriceRow) : List FV := df.map (fun r => FV.fin r.low)

/-- The `Close` column of a price DataFrame. -/
def closes (df : List PriceRow) : List FV := df.map (fun r => FV.fin r.close)

/-- The `Volume` column of a price DataFrame. -/
def volumes (df : List PriceRow) : List FV := df.map (fun r => FV.fin r.volume)

/-- The dictionary built by `calculate_all_indicators`
(TechnicalIndicators.py:221-259). -/
structure IndicatorsBundle where
  ema_10 : List FV
  ema_20 : List FV
  ema_50 : List FV
  ema_100 : List FV
  ema_200 : List FV
  rsi : List FV
  atr : List FV
  supertrend : List FV
  obv : List FV
  ad : List FV
  volume_surge : List FV

/-- `calculate_all_indicators` (TechnicalIndicators.py:221-259), with the
source's periods: EMA spans 10/20/50/100/200, RSI 14, ATR 14, supertrend
(10, 3.0), volume surge 20. -/
def calculate_all_indicators (df : List PriceRow) : IndicatorsBundle where
  ema_10 := calculate_ema (closes df) 10
  ema_20 := calculate_ema (closes df) 20
  ema_50 := calculate_ema (closes df) 50
  ema_100 := calculate_ema (closes df) 100
  ema_200 := calculate_ema (closes df) 200
  rsi := calculate_rsi (closes df) 14
  atr := calculate_atr (highs df) (lows df) (closes df) 14
  supertrend := calculate_supertrend (highs df) (lows df) (closes df) 10 3
  obv := calculate_obv (closes df) (volumes df)
  ad := calculate_ad_line (highs df) (lows df) (closes df) (volumes df)
  volume_surge := calculate_volume_surge (volumes df) 20

/-! ### Symbol normalization (Python `str.replace`) -/

/-- The left-to-right replacement scan of Python's `s.replace(pat, rep)`,
with explicit fuel so that the recursion is structural (the fuel never
runs out when it starts at the scanned list's length, since each step
consumes at least one character). -/
def py_go (pat rep : List Char) : ℕ → List Char → List Char
  | _, [] => []
  | 0, s => s
  | fuel + 1, c :: s =>
    if pat ≠ [] ∧ pat.isPrefixOf (c :: s) then
      rep ++ py_go pat rep fuel (s.drop (pat.length - 1))
    else c :: py_go pat rep fuel s

/-- Python's `s.replace(pat, rep)` on character lists: every
non-overlapping occurrence of `pat` is replaced, scanning left to right.
All uses in the sources have `pat ≠ []`. -/
def py_replace (pat rep s : List Char) : List Char := py_go pat rep s.length s

/-- The characters of `'.NS'`. -/
def sufNS : List Char := ['.', 'N', 'S']

/-- The characters of `'.BO'`. -/
def sufBO : List Char := ['.', 'B', 'O']

/-- `symbol.replace('.NS', '').replace('.BO', '')` — the store-key
normalization.  The identical expression appears at
TechnicalIndicators.py:280 (ticker column of the written frame),
IndicatorsWriter.py:64 (cursor lookup), :104, :262 (price fetch) and
indicators_pipeline.py:106. -/
def normalize_symbol (symbol : List Char) : List Char :=
  py_replace sufBO [] (py_replace sufNS [] symbol)

/-- The ticker that `create_indicators_dataframe` writes into every row
(TechnicalIndicators.py:280-281). -/
def writer_ticker (symbol : List Char) : List Char := normalize_symbol symbol

/-- The ticker that `get_latest_indicators_date` queries the cursor with
(IndicatorsWriter.py:64). -/
def cursor_ticker (symbol : List Char) : List Char := normalize_symbol symbol

/-! ### Result sink and sync controller -/

/-- One row of the indicators DataFrame / `stock_indicators_daily` table:
the store key `(ticker, date)` plus the 11 indicator cells in the schema
column order `ema_10 … volume_surge` (TechnicalIndicators.py:285-288). -/
structure IndRow where
  ticker : List Char
  date : ℤ
  vals : List FV
deriving DecidableEq

/-- `create_indicators_dataframe` (TechnicalIndicators.py:262-295): one
output row per input row, dates taken from the price index, ticker = the
symbol with `.NS`/`.BO` stripped, values in schema order. -/
def create_indicators_dataframe (df : List PriceRow) (symbol : List Char) : List IndRow :=
  let b := calculate_all_indicators df
  (List.range df.length).map (fun i =>
    { ticker := writer_ticker symbol
      date := (df.getD i default).date
      vals := [b.ema_10.getD i FV.nan, b.ema_20.getD i FV.nan, b.ema_50.getD i FV.nan,
               b.ema_100.getD i FV.nan, b.ema_200.getD i FV.nan, b.rsi.getD i FV.nan,
               b.atr.getD i FV.nan, b.supertrend.getD i FV.nan, b.obv.getD i FV.nan,
               b.ad.getD i FV.nan, b.volume_surge.getD i FV.nan] })

/-- `SELECT MAX(date) FROM stock_indicators_daily WHERE ticker = %s`
(IndicatorsWriter.py:48-85): the symbol's cursor, `none` when the symbol
has no stored rows. -/
def get_latest_indicators_date (store : List IndRow) (symbol : List Char) : Option ℤ :=
  ((store.filter (fun r => decide (r.ticker = cursor_ticker symbol))).map
    (fun r => r.date)).max?

/-- `SELECT date, open, high, low, close, volume FROM stock_price_daily
WHERE ticker = %s [AND date >= %s] ORDER BY date ASC`
(IndicatorsWriter.py:246-294).  The model keeps the table's own order
(assumed date-ascending); no claim below depends on the order. -/
def fetch_price_data_from_db (table : List PriceRow) (symbol : List Char)
    (start : Option ℤ) : List PriceRow :=
  table.filter (fun p =>
    decide (p.ticker = normalize_symbol symbol) &&
      (match start with
       | none => true
       | some s => decide (s ≤ p.date)))

/-- The effect of one `INSERT … ON CONFLICT (ticker, date) DO UPDATE`
row on the keyed store (IndicatorsWriter.py:187-204; the table has a
unique key on `(ticker, date)`): overwrite the row with the same key if
it exists, otherwise append. -/
def upsertRow (store : List IndRow) (r : IndRow) : List IndRow :=
  if store.any (fun x => decide (x.ticker = r.ticker ∧ x.date = r.date)) then
    store.map (fun x => if x.ticker = r.ticker ∧ x.date = r.date then r else x)
  else store ++ [r]

/-- `upsert_indicators_data` (IndicatorsWriter.py:128-243).  All rows are
written inside one transaction with a single `conn.commit()` at the end;
on any exception the code calls `conn.rollback()` and re-raises, so a
failed batch (modelled by `fail`) leaves the store exactly as it was —
the all-or-nothing transaction semantics of the SQL sink.  With
`db_update_enabled = False` (lines 149-152) or an empty frame (lines
154-157) nothing is written and the call returns normally. -/
def upsert_indicators_data (dbUpdate : Bool) (store : List IndRow)
    (rows : List IndRow) (fail : Bool) : List IndRow × Bool :=
  if dbUpdate = false then (store, true)
  else if rows.isEmpty then (store, true)
  else if fail then (store, false)
  else (rows.foldl upsertRow store, true)

/-- The stored row at key `(ticker, date)`. -/
def lookupRow (store : List IndRow) (t : List Char) (d : ℤ) : Option IndRow :=
  store.find? (fun x => decide (x.ticker = t ∧ x.date = d))

/-- The key `(ticker, date)` is persisted. -/
def hasRow (store : List IndRow) (t : List Char) (d : ℤ) : Bool :=
  (lookupRow store t d).isSome

/-- `process_single_symbol` (indicators_pipeline.py:91-203) on the
database path (db enabled, `force_recalculate=False`, no `--from-date`) —
the path the spec's sync-controller claims describe:

* cursor := `get_latest_indicators_date`; when it exists at date `D`,
  `target_from = D + timedelta(days=1)` and
  `warmup_from = target_from - timedelta(days=300)` (lines 121-137);
* fetch prices from `warmup_from` (line 139); an empty frame is reported
  as a per-symbol failure (lines 152-154);
* compute all indicators over the whole fetched window (line 161); an
  empty result is a failure (lines 163-165);
* when a cursor existed, slice to rows with `date >= target_from`
  (lines 169-176) and report success with no store mutation when nothing
  remains (lines 178-180);
* upsert the remaining rows; success returns True, a sink failure is
  caught and reported as a per-symbol error (lines 185-196). -/
def process_single_symbol (dbUpdate : Bool) (table : List PriceRow)
    (store : List IndRow) (symbol : List Char) (fail : Bool) : List IndRow × Bool :=
  let cursor := get_latest_indicators_date store symbol
  let target : Option ℤ := cursor.map (fun d => d + 1)
  let warm : Option ℤ := target.map (fun t => t - 300)
  let price_data := fetch_price_data_from_db table symbol warm
  if price_data.isEmpty then (store, false)
  else
    let indicators_df := create_indicators_dataframe price_data symbol
    if indicators_df.isEmpty then (store, false)
    else
      match target with
      | some t =>
        let sliced := indicators_df.filter (fun r => decide (t ≤ r.date))
        if sliced.isEmpty then (store, true)
        else upsert_indicators_data dbUpdate store sliced fail
      | none => upsert_indicators_data dbUpdate store indicators_df fail

/-- One iteration of the `update_all_symbols` loop
(indicators_pipeline.py:246-253): process the job's symbol against the
store accumulated so far and bump the success or the error counter. -/
def update_step (dbUpdate : Bool) (table : List PriceRow)
    (acc : List IndRow × ℕ × ℕ) (job : List Char × Bool) : List IndRow × ℕ × ℕ :=
  let r := process_single_symbol dbUpdate table acc.1 job.1 job.2
  if r.2 then (r.1, acc.2.1 + 1, acc.2.2) else (r.1, acc.2.1, acc.2.2 + 1)

/-- The per-symbol loop of `update_all_symbols`
(indicators_pipeline.py:246-255): every job is processed in order,
successes and errors are counted, and one symbol's outcome never stops
the loop.  Each job carries the symbol and whether its sink write would
fail (the SinkFailure environment). -/
def update_all_symbols (dbUpdate : Bool) (table : List PriceRow)
    (store : List IndRow) (jobs : List (List Char × Bool)) : List IndRow × ℕ × ℕ :=
  jobs.foldl (update_step dbUpdate table) (store, 0, 0)

/-! ### General lemmas about the embedding -/

theorem getD_range_map {α : Type _} (n : ℕ) (f : ℕ → α) (j : ℕ) (d : α) :
    ((List.range n).map f).getD j d = if j < n then f j else d := by
  by_cases h : j < n
  · rw [List.getD_eq_getElem?_getD, List.getElem?_map, List.getElem?_range h]
    simp [h]
  · rw [List.getD_eq_getElem?_getD, List.getElem?_map,
      List.getElem?_eq_none (by simpa using Nat.le_of_not_lt h)]
    simp [h]

theorem seriesOf_drop (xs : List FV) (k j : ℕ) :
    seriesOf (xs.drop k) j = seriesOf xs (k + j) := by
  simp [seriesOf, List.getD_eq_getElem?_getD, List.getElem?_drop]

theorem seriesOf_map_fin (cl : List ℚ) (j : ℕ) (h : j < cl.length) :
    seriesOf (cl.map FV.fin) j = FV.fin (cl.getD j 0) := by
  rw [seriesOf, List.getD_eq_getElem?_getD, List.getElem?_map,
    List.getElem?_eq_getElem (by simpa using h), List.getD_eq_getElem cl 0 h]
  rfl

/-! ### C3 — EMA seed and recurrence -/

/-- Modelled from the spec's indicator table: the EMA recurrence as a
rational-valued function, seeded with the first close of the window,
`e_0 = c_0` and `e_{i+1} = a·c_{i+1} + (1-a)·e_i`.  It is compared with
the source's `calculate_ema` (pandas `ewm(span, adjust=False).mean()`). -/
def emaQ (a : ℚ) (c : ℕ → ℚ) : ℕ → ℚ
  | 0 => c 0
  | i + 1 => a * c (i + 1) + (1 - a) * emaQ a c i

theorem ewmState_congr (a : ℚ) (x y : ℕ → FV) (i : ℕ) (h : ∀ j, j ≤ i → x j = y j) :
    ewmState a x i = ewmState a y i := by
  induction i with
  | zero => simpa [ewmState] using h 0 (Nat.le_refl 0)
  | succ i ih =>
    rw [ewmState, ewmState, h (i + 1) (Nat.le_refl _),
      ih (fun j hj => h j (Nat.le_trans hj (Nat.le_succ i)))]

theorem ewmState_fin (a : ℚ) (c : ℕ → ℚ) (i : ℕ) :
    ewmState a (fun j => FV.fin (c j)) i = FV.fin (emaQ a c i) := by
  induction i with
  | zero => rfl
  | succ i ih =>
    rw [ewmState, ih, ewm_step]
    simp only [isNan_fin, Bool.false_eq_true, if_false, fmul_fin_fin, fadd_fin_fin, emaQ]
    congr 1
    ring

theorem emaQ_congr (a : ℚ) (c d : ℕ → ℚ) (i : ℕ) (h : ∀ j, j ≤ i → c j = d j) :
    emaQ a c i = emaQ a d i := by
  induction i with
  | zero => simpa [emaQ] using h 0 (Nat.le_refl 0)
  | succ i ih =>
    rw [emaQ, emaQ, h (i + 1) (Nat.le_refl _),
      ih (fun j hj => h j (Nat.le_trans hj (Nat.le_succ i)))]

theorem emaQ_const (a q : ℚ) (i : ℕ) : emaQ a (fun _ => q) i = q := by
  induction i with
  | zero => rfl
  | succ i ih => rw [emaQ, ih]; ring

theorem calculate_ema_map_fin (cl : List ℚ) (N i : ℕ) (hi : i < cl.length) :
    (calculate_ema (cl.map FV.fin) N).getD i FV.nan
      = FV.fin (emaQ (2 / (N + 1 : ℚ)) (fun j => cl.getD j 0) i) := by
  rw [calculate_ema, getD_range_map]
  simp only [List.length_map, hi, if_true]
  rw [ewmState_congr _ _ (fun j => FV.fin (cl.getD j 0)) i
    (fun j hj => seriesOf_map_fin cl j (Nat.lt_of_le_of_lt hj hi))]
  exact ewmState_fin _ _ i

/-- C3: for every non-empty finite close series and every period `N`, the
source's `calculate_ema` agrees with the spec's recurrence `emaQ` — in
particular the first element of any window is that window's first close
and `ema[i] = α·close[i] + (1-α)·ema[i-1]` with `α = 2/(N+1)`; and on
the constant 3-point series `[10, 10, 10]` every EMA cell is `10` for
every period `N`. -/
theorem ema_seed_and_recurrence :
    (∀ (cl : List ℚ) (N i : ℕ), i < cl.length →
      (calculate_ema (cl.map FV.fin) N).getD i FV.nan
        = FV.fin (emaQ (2 / (N + 1 : ℚ)) (fun j => cl.getD j 0) i))
    ∧ (∀ (a : ℚ) (c : ℕ → ℚ), emaQ a c 0 = c 0 ∧
        ∀ i : ℕ, emaQ a c (i + 1) = a * c (i + 1) + (1 - a) * emaQ a c i)
    ∧ (∀ (N i : ℕ), i < 3 →
      (calculate_ema [FV.fin 10, FV.fin 10, FV.fin 10] N).getD i FV.nan = FV.fin 10) := by
  refine ⟨calculate_ema_map_fin, fun a c => ⟨rfl, fun i => rfl⟩, fun N i hi => ?_⟩
  have h0 : ([FV.fin 10, FV.fin 10, FV.fin 10] : List FV)
      = ([10, 10, 10] : List ℚ).map FV.fin := rfl
  rw [h0, calculate_ema_map_fin ([10, 10, 10] : List ℚ) N i (by simpa using hi)]
  rw [emaQ_congr _ _ (fun _ => (10 : ℚ)) i (fun j hj => ?_), emaQ_const]
  have hj3 : j < 3 := Nat.lt_of_le_of_lt hj hi
  interval_cases j <;> rfl

/-- Witness for C3 at a concrete input: the series `[4]` with period 10
and index 0. -/
theorem ema_seed_and_recurrence_witness :
    0 < ([(4 : ℚ)] : List ℚ).length ∧
      (calculate_ema (([(4 : ℚ)] : List ℚ).map FV.fin) 10).getD 0 FV.nan
        = FV.fin (emaQ (2 / ((10 : ℕ) + 1 : ℚ)) (fun j => ([(4 : ℚ)] : List ℚ).getD j 0) 0) :=
  ⟨by decide, ema_seed_and_recurrence.1 [(4 : ℚ)] 10 0 (by decide)⟩

/-! ### C6 — AD money-flow multiplier on degenerate bars -/

/-- C6 counterexample: on the degenerate bar `high = low = 10` with
`close = 11`, the source's money-flow multiplier is `2/0 = +inf`; the
`fillna(0)` replaces only NaN, so the multiplier is not `0`, and with a
volume of 5 the one-row AD line is `+inf` — the claim's "mfm is defined
as 0 for all values of close when high == low" fails. -/
theorem ad_mfm_infinite_on_degenerate_bar :
    ad_mfm (FV.fin 10) (FV.fin 10) (FV.fin 11) = FV.pinf
    ∧ ad_mfm (FV.fin 10) (FV.fin 10) (FV.fin 11) ≠ FV.fin 0
    ∧ calculate_ad_line [FV.fin 10] [FV.fin 10] [FV.fin 11] [FV.fin 5] = [FV.pinf] := by
  refine ⟨by decide, by decide, by decide⟩

/-- C6 (amended): on a degenerate bar `high == low` whose close equals
that shared price — the only shape a genuine OHLC bar with
`low ≤ close ≤ high` can have when `high == low` — the raw multiplier is
`0/0 = NaN`, `fillna(0)` turns it into `0`, and the row contributes
`0 · volume = 0` to the cumulative AD line, for every volume.  When the
close differs from the degenerate price the quotient is ±inf and is not
replaced (see the counterexample). -/
theorem ad_mfm_zero_on_degenerate_bar (h v : ℚ) :
    ad_mfm (FV.fin h) (FV.fin h) (FV.fin h) = FV.fin 0
    ∧ fmul (ad_mfm (FV.fin h) (FV.fin h) (FV.fin h)) (FV.fin v) = FV.fin 0 := by
  have hm : ad_mfm (FV.fin h) (FV.fin h) (FV.fin h) = FV.fin 0 := by
    rw [ad_mfm]
    simp [fdiv, isNan]
  exact ⟨hm, by rw [hm]; simp⟩

/-! ### C7 — RSI on a strictly increasing close series -/

theorem fsum_map_fin (qs : List ℚ) : fsum (qs.map FV.fin) = FV.fin qs.sum := by
  suffices h : ∀ acc : ℚ, (qs.map FV.fin).foldl fadd (FV.fin acc) = FV.fin (acc + qs.sum) by
    simpa [fsum] using h 0
  induction qs with
  | nil => intro acc; simp
  | cons q qs ih =>
    intro acc
    simp only [List.map_cons, List.foldl_cons, fadd_fin_fin, ih, List.sum_cons]
    congr 1
    ring

/-- A rolling mean whose window is entirely finite cells `g 0 … g (n-1)`. -/
theorem rollAt_map_fin (n : ℕ) (hn : n ≠ 0) (f : ℕ → FV) (i : ℕ) (hi : n ≤ i + 1)
    (g : ℕ → ℚ) (hg : ∀ t, t < n → f (i + 1 - n + t) = FV.fin (g t)) :
    rollAt n f i = FV.fin (((List.range n).map g).sum / n) := by
  have hw : windowL f (i + 1 - n) n = ((List.range n).map g).map FV.fin := by
    rw [windowL, List.map_map]
    exact List.map_congr_left (fun t ht => by rw [hg t (List.mem_range.mp ht)]; rfl)
  have hnone : ((((List.range n).map g).map FV.fin).any (fun v => isNan v)) = false := by
    rw [List.any_eq_false]
    intro v hv
    obtain ⟨q, _, rfl⟩ := List.mem_map.mp hv
    simp
  rw [rollAt, if_neg (by omega), hw, hnone]
  simp only [Bool.false_eq_true, if_false]
  rw [fsum_map_fin, fdiv_fin_fin _ _ (by exact_mod_cast hn)]

theorem diffAt_map_fin (cl : List ℚ) (idx : ℕ) (h1 : 1 ≤ idx) (h2 : idx < cl.length) :
    diffAt (seriesOf (cl.map FV.fin)) idx
      = FV.fin (cl.getD idx 0 - cl.getD (idx - 1) 0) := by
  obtain ⟨m, rfl⟩ : ∃ m, idx = m + 1 := ⟨idx - 1, by omega⟩
  rw [diffAt, seriesOf_map_fin cl (m + 1) h2, seriesOf_map_fin cl m (by omega)]
  simp

theorem chain'_lt_getD (cl : List ℚ) (h : cl.Chain' (· < ·)) (idx : ℕ)
    (h1 : 1 ≤ idx) (h2 : idx < cl.length) :
    cl.getD (idx - 1) 0 < cl.getD idx 0 := by
  obtain ⟨m, rfl⟩ : ∃ m, idx = m + 1 := ⟨idx - 1, by omega⟩
  have hm := List.chain'_iff_get.mp h m (by omega)
  rw [List.getD_eq_getElem cl 0 (by omega : m + 1 - 1 < cl.length),
    List.getD_eq_getElem cl 0 h2]
  simpa using hm

theorem rsi_gain_cell (cl : List ℚ) (idx : ℕ) (h1 : 1 ≤ idx) (h2 : idx < cl.length)
    (hlt : cl.getD (idx - 1) 0 < cl.getD idx 0) :
    rsi_gain (seriesOf (cl.map FV.fin)) idx
      = FV.fin (cl.getD idx 0 - cl.getD (idx - 1) 0) := by
  rw [rsi_gain, diffAt_map_fin cl idx h1 h2]
  rw [if_pos]
  show flt (FV.fin 0) (FV.fin (cl.getD idx 0 - cl.getD (idx - 1) 0)) = true
  simpa [flt] using hlt

theorem rsi_loss_cell (cl : List ℚ) (idx : ℕ) (h1 : 1 ≤ idx) (h2 : idx < cl.length)
    (hlt : cl.getD (idx - 1) 0 < cl.getD idx 0) :
    rsi_loss (seriesOf (cl.map FV.fin)) idx = FV.fin 0 := by
  rw [rsi_loss, diffAt_map_fin cl idx h1 h2]
  rw [if_neg]
  · simp
  · show ¬ flt (FV.fin (cl.getD idx 0 - cl.getD (idx - 1) 0)) (FV.fin 0) = true
    simp only [flt, decide_eq_true_eq, not_lt]
    linarith

theorem rsiAt_eq_100 (x : ℕ → FV) (i : ℕ) (g : ℚ) (hg : 0 < g)
    (hgain : rollAt 14 (rsi_gain x) i = FV.fin g)
    (hloss : rollAt 14 (rsi_loss x) i = FV.fin 0) :
    rsiAt x 14 i = FV.fin 100 := by
  rw [rsiAt, hgain, hloss, fdiv_fin_zero_pos g hg]
  decide

/-- C7: for a strictly monotonically increasing close series (so the
rolling average loss is exactly 0), the source's `calculate_rsi` yields
100 at every index `i ≥ 14`, once the 14-period window is full. -/
theorem rsi_boundary (cl : List ℚ) (hmono : cl.Chain' (· < ·)) (i : ℕ)
    (h14 : 14 ≤ i) (hlen : i < cl.length) :
    (calculate_rsi (cl.map FV.fin) 14).getD i FV.nan = FV.fin 100 := by
  rw [calculate_rsi, getD_range_map]
  simp only [List.length_map, hlen, if_true]
  have hbound : ∀ t, t < 14 → 1 ≤ i + 1 - 14 + t ∧ i + 1 - 14 + t < cl.length := by
    intro t ht
    omega
  have hloss : rollAt 14 (rsi_loss (seriesOf (cl.map FV.fin))) i
      = FV.fin (((List.range 14).map (fun _ => (0 : ℚ))).sum / 14) := by
    refine rollAt_map_fin 14 (by omega) _ i (by omega) _ (fun t ht => ?_)
    exact rsi_loss_cell cl _ (hbound t ht).1 (hbound t ht).2
      (chain'_lt_getD cl hmono _ (hbound t ht).1 (hbound t ht).2)
  have hgain : rollAt 14 (rsi_gain (seriesOf (cl.map FV.fin))) i
      = FV.fin (((List.range 14).map
          (fun t => cl.getD (i + 1 - 14 + t) 0 - cl.getD (i + 1 - 14 + t - 1) 0)).sum / 14) := by
    refine rollAt_map_fin 14 (by omega) _ i (by omega) _ (fun t ht => ?_)
    exact rsi_gain_cell cl _ (hbound t ht).1 (hbound t ht).2
      (chain'_lt_getD cl hmono _ (hbound t ht).1 (hbound t ht).2)
  have hzero : (((List.range 14).map (fun _ => (0 : ℚ))).sum / 14) = 0 := by
    simp
  have hpos : 0 < ((List.range 14).map
      (fun t => cl.getD (i + 1 - 14 + t) 0 - cl.getD (i + 1 - 14 + t - 1) 0)).sum / 14 := by
    refine div_pos (List.sum_pos _ (fun q hq => ?_) (by simp)) (by norm_num)
    obtain ⟨t, ht, rfl⟩ := List.mem_map.mp hq
    have ht14 := List.mem_range.mp ht
    have := chain'_lt_getD cl hmono _ (hbound t ht14).1 (hbound t ht14).2
    linarith
  rw [hzero] at hloss
  exact rsiAt_eq_100 _ i _ hpos hgain hloss

/-- The strictly increasing 16-point close series `0, 1, …, 15`. -/
def incrCloses : List ℚ := [0, 1, 2, 3, 4, 5, 6, 7, 8, 9, 10, 11, 12, 13, 14, 15]

/-- Witness for C7: the strictly increasing 16-point series `0,1,…,15`
yields RSI exactly 100 at index 14. -/
theorem rsi_boundary_witness :
    incrCloses.Chain' (· < ·) ∧
      (calculate_rsi (incrCloses.map FV.fin) 14).getD 14 FV.nan = FV.fin 100 :=
  ⟨by norm_num [incrCloses, List.chain'_cons], rsi_boundary incrCloses
    (by norm_num [incrCloses, List.chain'_cons]) 14 (by norm_num) (by norm_num [incrCloses])⟩

/-! ### C4 — Supertrend trend-flip rule -/

theorem trend_flip_aux (p q : ℤ) (A B : Prop) [Decidable A] [Decidable B]
    (hq : q = if p = 1 ∧ A then -1 else if p = -1 ∧ B then 1 else p) :
    ((p = 1 ∧ q = -1) ↔ (p = 1 ∧ A))
    ∧ ((p = -1 ∧ q = 1) ↔ (p = -1 ∧ B))
    ∧ (¬(p = 1 ∧ A) → ¬(p = -1 ∧ B) → q = p) := by
  subst hq
  by_cases h1 : p = 1 <;> by_cases h2 : p = -1 <;> by_cases ha : A <;> by_cases hb : B <;>
    simp_all

/-- Strictly declining test bars: closes 100 down to 88, then a crash to
50, 49, 48; `high = close + 1`, `low = close - 1`.  The crash bar at
index 13 is the one that crosses below the ratcheted lower band. -/
def declCloses : List ℚ := [100, 99, 98, 97, 96, 95, 94, 93, 92, 91, 90, 89, 88, 50, 49, 48]

/-- `High` cells of the declining test bars. -/
def declHighsF : List FV := declCloses.map (fun q => FV.fin (q + 1))

/-- `Low` cells of the declining test bars. -/
def declLowsF : List FV := declCloses.map (fun q => FV.fin (q - 1))

/-- `Close` cells of the declining test bars. -/
def declClosesF : List FV := declCloses.map FV.fin

/-- The raw upper band of the declining test bars, as built by
`calculate_supertrend` with the default period 10 and multiplier 3. -/
def declUB : ℕ → FV :=
  st_upperAt (seriesOf declHighsF) (seriesOf declLowsF) (seriesOf declClosesF) 10 3

/-- The raw lower band of the declining test bars. -/
def declLB : ℕ → FV :=
  st_lowerAt (seriesOf declHighsF) (seriesOf declLowsF) (seriesOf declClosesF) 10 3

/-- The close cells of the declining test bars, as an index function. -/
def declCL : ℕ → FV := seriesOf declClosesF

/-- C4: for every band/close series and every `i`, the stored trend
transitions Uptrend→Downtrend at `i+1` exactly when
`close[i+1] ≤ final_lower` while the trend was up, transitions
Downtrend→Uptrend exactly when `close[i+1] ≥ final_upper` while it was
down, and persists otherwise; and on the strictly declining bars
`declCloses ± 1`, which cross below the lower band at index 13, the
trend sequence is thirteen `1`s followed by three `-1`s — exactly one
flip and no oscillation on any single bar. -/
theorem supertrend_flip_rule :
    (∀ (ub lb cl : ℕ → FV) (i : ℕ),
      ((st_trend ub lb cl i = 1 ∧ st_trend ub lb cl (i + 1) = -1) ↔
        (st_trend ub lb cl i = 1 ∧ fle (cl (i + 1)) (st_finalLower lb cl (i + 1)) = true))
      ∧ ((st_trend ub lb cl i = -1 ∧ st_trend ub lb cl (i + 1) = 1) ↔
        (st_trend ub lb cl i = -1 ∧ fge (cl (i + 1)) (st_finalUpper ub cl (i + 1)) = true))
      ∧ (¬(st_trend ub lb cl i = 1 ∧ fle (cl (i + 1)) (st_finalLower lb cl (i + 1)) = true) →
         ¬(st_trend ub lb cl i = -1 ∧ fge (cl (i + 1)) (st_finalUpper ub cl (i + 1)) = true) →
           st_trend ub lb cl (i + 1) = st_trend ub lb cl i))
    ∧ declCloses.Chain' (· > ·)
    ∧ (List.range 16).map (st_trend declUB declLB declCL)
        = List.replicate 13 1 ++ List.replicate 3 (-1) := by
  refine ⟨fun ub lb cl i => ?_, by norm_num [declCloses, List.chain'_cons], by decide⟩
  exact trend_flip_aux (st_trend ub lb cl i) (st_trend ub lb cl (i + 1)) _ _ rfl

/-- Witness for C4 on a concrete instance: with all-NaN bands and closes
(no comparison fires), the trend persists from index 0 to index 1. -/
theorem supertrend_flip_rule_witness :
    ¬(st_trend (fun _ => FV.nan) (fun _ => FV.nan) (fun _ => FV.nan) 0 = 1 ∧
        fle ((fun _ => FV.nan) 1)
          (st_finalLower (fun _ => FV.nan) (fun _ => FV.nan) 1) = true) ∧
      st_trend (fun _ => FV.nan) (fun _ => FV.nan) (fun _ => FV.nan) 1
        = st_trend (fun _ => FV.nan) (fun _ => FV.nan) (fun _ => FV.nan) 0 :=
  ⟨by decide, (supertrend_flip_rule.1 (fun _ => FV.nan) (fun _ => FV.nan)
    (fun _ => FV.nan) 0).2.2 (by decide) (by decide)⟩

/-! ### C9 — Symbol key normalization -/

/-- The replacement scan leaves an occurrence-free prefix untouched: if no
character of `s` equals the pattern's first character, the scan walks
over `s` and continues on `t`. -/
theorem py_replace_append (pat rep : List Char) (c0 : Char) (p' : List Char)
    (hp : pat = c0 :: p') (s t : List Char) (hs : ∀ c ∈ s, c ≠ c0) :
    py_replace pat rep (s ++ t) = s ++ py_replace pat rep t := by
  induction s with
  | nil => simp
  | cons c s ih =>
    have hc : c ≠ c0 := hs c (List.mem_cons_self c s)
    have hpre : ¬(pat ≠ [] ∧ pat.isPrefixOf (c :: (s ++ t)) = true) := by
      rintro ⟨-, hpre⟩
      rw [hp] at hpre
      simp only [List.isPrefixOf, Bool.and_eq_true, beq_iff_eq] at hpre
      exact hc hpre.1.symm
    have hstep : py_replace pat rep ((c :: s) ++ t) = c :: py_replace pat rep (s ++ t) := by
      rw [List.cons_append, py_replace, List.length_cons, py_go, if_neg hpre]
      rfl
    rw [hstep, ih (fun d hd => hs d (List.mem_cons_of_mem c hd)), List.cons_append]

/-- An occurrence-free string is left unchanged by the replacement. -/
theorem py_replace_of_no_occ (pat rep : List Char) (c0 : Char) (p' : List Char)
    (hp : pat = c0 :: p') (s : List Char) (hs : ∀ c ∈ s, c ≠ c0) :
    py_replace pat rep s = s := by
  have h := py_replace_append pat rep c0 p' hp s [] hs
  simpa [py_replace, py_go] using h

/-- C9: the ticker written into every indicator row and the ticker used
for the cursor lookup are one and the same normalization — the symbol
with its `.NS`/`.BO` market-suffix decoration stripped — so for any base
symbol (no `'.'` in it) both keys agree on the bare symbol and on its
`.NS`- and `.BO`-decorated forms. -/
theorem symbol_key_normalization :
    (∀ symbol : List Char, writer_ticker symbol = cursor_ticker symbol)
    ∧ (∀ base : List Char, (∀ c ∈ base, c ≠ '.') →
        cursor_ticker (base ++ sufNS) = base
        ∧ cursor_ticker (base ++ sufBO) = base
        ∧ cursor_ticker base = base) := by
  refine ⟨fun symbol => rfl, fun base hbase => ?_⟩
  have hNS : py_replace sufNS [] (base ++ sufNS) = base := by
    rw [py_replace_append sufNS [] '.' ['N', 'S'] rfl base sufNS hbase]
    have : py_replace sufNS [] sufNS = [] := by decide
    rw [this, List.append_nil]
  have hBObase : py_replace sufBO [] base = base :=
    py_replace_of_no_occ sufBO [] '.' ['B', 'O'] rfl base hbase
  have hNSbase : py_replace sufNS [] base = base :=
    py_replace_of_no_occ sufNS [] '.' ['N', 'S'] rfl base hbase
  refine ⟨?_, ?_, ?_⟩
  · show py_replace sufBO [] (py_replace sufNS [] (base ++ sufNS)) = base
    rw [hNS, hBObase]
  · show py_replace sufBO [] (py_replace sufNS [] (base ++ sufBO)) = base
    have h1 : py_replace sufNS [] (base ++ sufBO) = base ++ sufBO := by
      rw [py_replace_append sufNS [] '.' ['N', 'S'] rfl base sufBO hbase]
      have : py_replace sufNS [] sufBO = sufBO := by decide
      rw [this]
    rw [h1, py_replace_append sufBO [] '.' ['B', 'O'] rfl base sufBO hbase]
    have : py_replace sufBO [] sufBO = [] := by decide
    rw [this, List.append_nil]
  · show py_replace sufBO [] (py_replace sufNS [] base) = base
    rw [hNSbase, hBObase]

/-- Witness for C9: the base symbol `RELIANCE` — both decorated forms and
the bare form normalize to the same store key. -/
theorem symbol_key_normalization_witness :
    (∀ c ∈ ("RELIANCE".toList), c ≠ '.') ∧
      cursor_ticker ("RELIANCE".toList ++ sufNS) = "RELIANCE".toList
      ∧ cursor_ticker ("RELIANCE".toList ++ sufBO) = "RELIANCE".toList
      ∧ cursor_ticker "RELIANCE".toList = "RELIANCE".toList :=
  ⟨by decide, symbol_key_normalization.2 "RELIANCE".toList (by decide)⟩

/-! ### C1 — Warmup-slice equivalence -/

/-- "Equal within floating tolerance `tol`": both cells finite and within
`tol` of each other. -/
def fv_near (a b : FV) (tol : ℚ) : Bool :=
  match a, b with
  | FV.fin x, FV.fin y => decide (|x - y| ≤ tol)
  | _, _ => false

/-- A 90-trading-day price history spanning the calendar window
`[D-400, D]` with `D = 0`: sixty bars at close 100 on dates `-400 …`,
then thirty bars at close 0 on the dates `-50 … -21` inside the slice
window `[D-50, D]`. -/
def warmupFull : List PriceRow :=
  (List.range 90).map (fun i =>
    if i < 60 then ⟨['W'], -400 + (i : ℤ), 100, 101, 99, 100, 1000⟩
    else ⟨['W'], -50 + ((i : ℤ) - 60), 0, 1, -1, 0, 1000⟩)

/-- The rows of `warmupFull` inside the slice window `[D-50, D]`. -/
def warmupTail : List PriceRow := warmupFull.filter (fun p => decide (-50 ≤ p.date))

set_option maxRecDepth 40000 in
/-- C1 counterexample: on `warmupFull` — a price series over the enlarged
window `[D-400, D]` whose slice `[D-50, D]` holds its last thirty rows —
`ema_10`, whose nominal 10-row lookback is fully contained in the larger
window (sixty rows precede the slice) and which the claim does not
exempt, gives `900/11 ≈ 81.8` at the slice's first row when computed
over the enlarged window and sliced, but `0` when computed directly over
the slice: the two differ by far more than the tolerance `1e-9`, so the
claimed equivalence fails for the seeded-recursive EMA family. -/
theorem warmup_slice_ema_counterexample :
    warmupTail = warmupFull.drop 60
    ∧ (∀ p ∈ warmupFull, -400 ≤ p.date ∧ p.date ≤ 0)
    ∧ (∀ p ∈ warmupTail, -50 ≤ p.date ∧ p.date ≤ 0)
    ∧ ((calculate_ema (closes warmupFull) 10).drop 60).getD 0 FV.nan = FV.fin (900 / 11)
    ∧ (calculate_ema (closes warmupTail) 10).getD 0 FV.nan = FV.fin 0
    ∧ fv_near (FV.fin (900 / 11)) (FV.fin 0) (1 / 1000000000) = false := by
  refine ⟨by decide, by decide, by decide, by decide, by decide, by decide⟩

theorem diffAt_shift (x x' : ℕ → FV) (k : ℕ) (hx : ∀ t, x' t = x (k + t)) :
    ∀ j, 1 ≤ j → diffAt x' j = diffAt x (k + j)
  | j + 1, _ => by
    show fsub (x' (j + 1)) (x' j) = fsub (x (k + (j + 1))) (x (k + j))
    rw [hx (j + 1), hx j]

theorem rsi_cells_shift (x x' : ℕ → FV) (k : ℕ) (hx : ∀ t, x' t = x (k + t))
    (j : ℕ) (hj : 1 ≤ j) :
    rsi_gain x' j = rsi_gain x (k + j) ∧ rsi_loss x' j = rsi_loss x (k + j) := by
  rw [rsi_gain, rsi_gain, rsi_loss, rsi_loss, diffAt_shift x x' k hx j hj]
  exact ⟨rfl, rfl⟩

/-- Rolling means agree across an index shift once the whole window does. -/
theorem rollAt_shift (n : ℕ) (f f' : ℕ → FV) (k j : ℕ) (hj : n ≤ j + 1)
    (hf : ∀ t, j + 1 - n ≤ t → t ≤ j → f' t = f (k + t)) :
    rollAt n f' j = rollAt n f (k + j) := by
  rw [rollAt, rollAt, if_neg (show ¬j + 1 < n by omega),
    if_neg (show ¬k + j + 1 < n by omega)]
  have hw : windowL f' (j + 1 - n) n = windowL f (k + j + 1 - n) n := by
    rw [windowL, windowL]
    refine List.map_congr_left (fun t ht => ?_)
    have htn := List.mem_range.mp ht
    rw [hf (j + 1 - n + t) (by omega) (by omega)]
    congr 1
    omega
  rw [hw]

theorem rsiAt_shift (x x' : ℕ → FV) (k : ℕ) (hx : ∀ t, x' t = x (k + t))
    (j : ℕ) (hj : 14 ≤ j) :
    rsiAt x' 14 j = rsiAt x 14 (k + j) := by
  rw [rsiAt, rsiAt,
    rollAt_shift 14 (rsi_gain x) (rsi_gain x') k j (by omega)
      (fun t h1 h2 => (rsi_cells_shift x x' k hx t (by omega)).1),
    rollAt_shift 14 (rsi_loss x) (rsi_loss x') k j (by omega)
      (fun t h1 h2 => (rsi_cells_shift x x' k hx t (by omega)).2)]

theorem trAt_shift (h l c h' l' c' : ℕ → FV) (k : ℕ)
    (hh : ∀ t, h' t = h (k + t)) (hl : ∀ t, l' t = l (k + t))
    (hc : ∀ t, c' t = c (k + t)) :
    ∀ j, 1 ≤ j → trAt h' l' c' j = trAt h l c (k + j)
  | j + 1, _ => by
    rw [trAt, trAt]
    have hs : shiftAt c' (j + 1) = shiftAt c (k + (j + 1)) := by
      show c' j = c (k + j)
      exact hc j
    rw [hh (j + 1), hl (j + 1), hs]

theorem atrAt_shift (h l c h' l' c' : ℕ → FV) (k : ℕ)
    (hh : ∀ t, h' t = h (k + t)) (hl : ∀ t, l' t = l (k + t))
    (hc : ∀ t, c' t = c (k + t)) (j : ℕ) (hj : 14 ≤ j) :
    atrAt h' l' c' 14 j = atrAt h l c 14 (k + j) := by
  rw [atrAt, atrAt]
  exact rollAt_shift 14 _ _ k j (by omega)
    (fun t h1 h2 => trAt_shift h l c h' l' c' k hh hl hc t (by omega))

theorem volume_surgeAt_shift (v v' : ℕ → FV) (k : ℕ) (hv : ∀ t, v' t = v (k + t))
    (j : ℕ) (hj : 19 ≤ j) :
    volume_surgeAt v' 20 j = volume_surgeAt v 20 (k + j) := by
  rw [volume_surgeAt, volume_surgeAt, hv j,
    rollAt_shift 20 v v' k j (by omega) (fun t h1 h2 => hv t)]

theorem seriesOf_closes_drop (df : List PriceRow) (k t : ℕ) :
    seriesOf (closes (df.drop k)) t = seriesOf (closes df) (k + t) := by
  rw [closes, List.map_drop, ← closes, seriesOf_drop]

theorem seriesOf_highs_drop (df : List PriceRow) (k t : ℕ) :
    seriesOf (highs (df.drop k)) t = seriesOf (highs df) (k + t) := by
  rw [highs, List.map_drop, ← highs, seriesOf_drop]

theorem seriesOf_lows_drop (df : List PriceRow) (k t : ℕ) :
    seriesOf (lows (df.drop k)) t = seriesOf (lows df) (k + t) := by
  rw [lows, List.map_drop, ← lows, seriesOf_drop]

theorem seriesOf_volumes_drop (df : List PriceRow) (k t : ℕ) :
    seriesOf (volumes (df.drop k)) t = seriesOf (volumes df) (k + t) := by
  rw [volumes, List.map_drop, ← volumes, seriesOf_drop]

/-- C1 (amended): the fixed-width rolling indicators do satisfy the
warmup-slice equivalence, exactly (hence within any tolerance): for every
price DataFrame and every slice offset `k`, the sliced full-window output
equals the direct small-window output at every sliced row whose full
lookback — including the previous-day diff — lies inside the smaller
window: local index `j ≥ 14` for `rsi` and `atr` (period 14 plus the
diff/shift row), `j ≥ 19` for `volume_surge` (window 20).  The
seeded-recursive indicators (`ema_N`, `supertrend`) and the cumulative
ones (`obv`, `ad`) are excluded: the counterexample shows `ema_10`
already violates the claimed equivalence. -/
theorem warmup_slice_rolling (df : List PriceRow) (k j : ℕ) :
    (14 ≤ j →
      (calculate_rsi (closes (df.drop k)) 14).getD j FV.nan
        = (calculate_rsi (closes df) 14).getD (k + j) FV.nan
      ∧ (calculate_atr (highs (df.drop k)) (lows (df.drop k)) (closes (df.drop k)) 14).getD j FV.nan
        = (calculate_atr (highs df) (lows df) (closes df) 14).getD (k + j) FV.nan)
    ∧ (19 ≤ j →
      (calculate_volume_surge (volumes (df.drop k)) 20).getD j FV.nan
        = (calculate_volume_surge (volumes df) 20).getD (k + j) FV.nan) := by
  have hC := fun t => seriesOf_closes_drop df k t
  have hH := fun t => seriesOf_highs_drop df k t
  have hL := fun t => seriesOf_lows_drop df k t
  have hV := fun t => seriesOf_volumes_drop df k t
  refine ⟨fun hj => ⟨?_, ?_⟩, fun hj => ?_⟩
  · rw [calculate_rsi, calculate_rsi, getD_range_map, getD_range_map]
    by_cases hin : k + j < df.length
    · rw [if_pos (by simp [closes]; omega), if_pos (by simp [closes]; omega)]
      exact rsiAt_shift _ _ k hC j hj
    · rw [if_neg (by simp [closes]; omega), if_neg (by simp [closes]; omega)]
  · rw [calculate_atr, calculate_atr, getD_range_map, getD_range_map]
    by_cases hin : k + j < df.length
    · rw [if_pos (by simp [highs]; omega), if_pos (by simp [highs]; omega)]
      exact atrAt_shift _ _ _ _ _ _ k hH hL hC j hj
    · rw [if_neg (by simp [highs]; omega), if_neg (by simp [highs]; omega)]
  · rw [calculate_volume_surge, calculate_volume_surge, getD_range_map, getD_range_map]
    by_cases hin : k + j < df.length
    · rw [if_pos (by simp [volumes]; omega), if_pos (by simp [volumes]; omega)]
      exact volume_surgeAt_shift _ _ k hV j hj
    · rw [if_neg (by simp [volumes]; omega), if_neg (by simp [volumes]; omega)]

/-- Witness for C1's amended theorem on `warmupFull` with slice offset 60:
the sliced and the direct RSI agree at local index 14 and the sliced and
direct volume surge agree at local index 19. -/
theorem warmup_slice_rolling_witness :
    (14 ≤ 14 ∧
      (calculate_rsi (closes (warmupFull.drop 60)) 14).getD 14 FV.nan
        = (calculate_rsi (closes warmupFull) 14).getD (60 + 14) FV.nan)
    ∧ (19 ≤ 19 ∧
      (calculate_volume_surge (volumes (warmupFull.drop 60)) 20).getD 19 FV.nan
        = (calculate_volume_surge (volumes warmupFull) 20).getD (60 + 19) FV.nan) :=
  ⟨⟨by decide, ((warmup_slice_rolling warmupFull 60 14).1 (by decide)).1⟩,
   ⟨by decide, (warmup_slice_rolling warmupFull 60 19).2 (by decide)⟩⟩

/-! ### C10 — Supertrend NaN prefix and finite tail -/

theorem isFin_foldl_fadd (w : List FV) :
    ∀ acc : FV, (∀ x ∈ w, isFin x = true) → isFin acc = true →
      isFin (w.foldl fadd acc) = true := by
  induction w with
  | nil => intro acc _ hacc; simpa
  | cons x w ih =>
    intro acc hw hacc
    exact ih (fadd acc x) (fun y hy => hw y (List.mem_cons_of_mem x hy))
      (isFin_fadd hacc (hw x (List.mem_cons_self x w)))

theorem isFin_fsum (w : List FV) (hw : ∀ x ∈ w, isFin x = true) : isFin (fsum w) = true :=
  isFin_foldl_fadd w (FV.fin 0) hw rfl

theorem isFin_fdiv_fin {a : FV} (ha : isFin a = true) (b : ℚ) (hb : b ≠ 0) :
    isFin (fdiv a (FV.fin b)) = true := by
  obtain ⟨q, rfl⟩ := isFin_exists ha
  rw [fdiv_fin_fin q b hb]
  rfl

theorem seriesOf_price_col (g : PriceRow → ℚ) (df : List PriceRow) (j : ℕ)
    (hj : j < df.length) :
    seriesOf (df.map (fun r => FV.fin (g r))) j = FV.fin (g (df.getD j default)) := by
  rw [seriesOf, List.getD_eq_getElem?_getD, List.getElem?_map,
    List.getD_eq_getElem?_getD df, List.getElem?_eq_getElem hj]
  rfl

theorem highs_isFin (df : List PriceRow) (j : ℕ) (hj : j < df.length) :
    isFin (seriesOf (highs df) j) = true := by
  rw [highs, seriesOf_price_col (fun r => r.high) df j hj]
  rfl

theorem lows_isFin (df : List PriceRow) (j : ℕ) (hj : j < df.length) :
    isFin (seriesOf (lows df) j) = true := by
  rw [lows, seriesOf_price_col (fun r => r.low) df j hj]
  rfl

theorem closes_isFin (df : List PriceRow) (j : ℕ) (hj : j < df.length) :
    isFin (seriesOf (closes df) j) = true := by
  rw [closes, seriesOf_price_col (fun r => r.close) df j hj]
  rfl

/-- The true range of row 0 is NaN: `close.shift()` has no previous
close there. -/
theorem trAt_zero (h l c : ℕ → FV) : trAt h l c 0 = FV.nan := by
  simp [trAt, shiftAt]

theorem trAt_isFin (df : List PriceRow) (j : ℕ) (h1 : 1 ≤ j) (h2 : j < df.length) :
    isFin (trAt (seriesOf (highs df)) (seriesOf (lows df)) (seriesOf (closes df)) j)
      = true := by
  obtain ⟨m, rfl⟩ : ∃ m, j = m + 1 := ⟨j - 1, by omega⟩
  rw [trAt]
  have hsh : shiftAt (seriesOf (closes df)) (m + 1) = seriesOf (closes df) m := rfl
  rw [hsh]
  have hh := highs_isFin df (m + 1) h2
  have hl := lows_isFin df (m + 1) h2
  have hcm := closes_isFin df m (by omega)
  exact isFin_fmax (isFin_fsub hh hl)
    (isFin_fmax (isFin_fabs (isFin_fsub hh hcm)) (isFin_fabs (isFin_fsub hl hcm)))

/-- The period-10 ATR is NaN through index 9: the rolling window is not
full before index 9, and at index 9 it still contains the NaN true range
of row 0. -/
theorem atrAt_nan (h l c : ℕ → FV) (i : ℕ) (hi : i ≤ 9) : atrAt h l c 10 i = FV.nan := by
  rcases Nat.lt_or_ge (i + 1) 10 with h8 | h8
  · rw [atrAt, rollAt, if_pos h8]
  · have h9 : i = 9 := by omega
    subst h9
    have hany : ((windowL (trAt h l c) (9 + 1 - 10) 10).any (fun v => isNan v)) = true := by
      rw [List.any_eq_true]
      refine ⟨FV.nan, ?_, rfl⟩
      rw [windowL]
      refine List.mem_map.mpr ⟨0, List.mem_range.mpr (by omega), ?_⟩
      show trAt h l c (9 + 1 - 10 + 0) = FV.nan
      exact trAt_zero h l c
    rw [atrAt, rollAt, if_neg (by omega), if_pos hany]

/-- From index 10 on, the period-10 ATR of an all-finite price frame is a
finite value. -/
theorem atrAt_isFin (df : List PriceRow) (i : ℕ) (h10 : 10 ≤ i) (hn : i < df.length) :
    isFin (atrAt (seriesOf (highs df)) (seriesOf (lows df)) (seriesOf (closes df)) 10 i)
      = true := by
  have hall : ∀ x ∈ windowL
      (trAt (seriesOf (highs df)) (seriesOf (lows df)) (seriesOf (closes df)))
      (i + 1 - 10) 10, isFin x = true := by
    intro x hx
    rw [windowL] at hx
    obtain ⟨t, ht, rfl⟩ := List.mem_map.mp hx
    have ht10 := List.mem_range.mp ht
    exact trAt_isFin df (i + 1 - 10 + t) (by omega) (by omega)
  have hnone : ((windowL
      (trAt (seriesOf (highs df)) (seriesOf (lows df)) (seriesOf (closes df)))
      (i + 1 - 10) 10).any (fun v => isNan v)) = false := by
    rw [List.any_eq_false]
    intro x hx
    simp [isNan_eq_false_of_isFin (hall x hx)]
  rw [atrAt, rollAt, if_neg (by omega), hnone]
  simp only [Bool.false_eq_true, if_false]
  exact isFin_fdiv_fin (isFin_fsum _ hall) _ (by norm_num)

/-- The raw upper band of `calculate_supertrend`, with the source's
period 10 and multiplier 3, for price frame `df`. -/
def ubOf (df : List PriceRow) : ℕ → FV :=
  st_upperAt (seriesOf (highs df)) (seriesOf (lows df)) (seriesOf (closes df)) 10 3

/-- The raw lower band of `calculate_supertrend` for price frame `df`. -/
def lbOf (df : List PriceRow) : ℕ → FV :=
  st_lowerAt (seriesOf (highs df)) (seriesOf (lows df)) (seriesOf (closes df)) 10 3

theorem ubOf_nan (df : List PriceRow) (i : ℕ) (hi : i ≤ 9) : ubOf df i = FV.nan := by
  rw [ubOf, st_upperAt, atrAt_nan _ _ _ i hi]
  simp

theorem lbOf_nan (df : List PriceRow) (i : ℕ) (hi : i ≤ 9) : lbOf df i = FV.nan := by
  rw [lbOf, st_lowerAt, atrAt_nan _ _ _ i hi]
  simp

theorem ubOf_isFin (df : List PriceRow) (i : ℕ) (h10 : 10 ≤ i) (hn : i < df.length) :
    isFin (ubOf df i) = true := by
  rw [ubOf, st_upperAt]
  exact isFin_fadd
    (isFin_fdiv_fin (isFin_fadd (highs_isFin df i hn) (lows_isFin df i hn)) 2 (by norm_num))
    (isFin_fmul rfl (atrAt_isFin df i h10 hn))

theorem lbOf_isFin (df : List PriceRow) (i : ℕ) (h10 : 10 ≤ i) (hn : i < df.length) :
    isFin (lbOf df i) = true := by
  rw [lbOf, st_lowerAt]
  exact isFin_fsub
    (isFin_fdiv_fin (isFin_fadd (highs_isFin df i hn) (lows_isFin df i hn)) 2 (by norm_num))
    (isFin_fmul rfl (atrAt_isFin df i h10 hn))

theorem st_finalLower_nan (lb cl : ℕ → FV) (i : ℕ) (hnan : lb (i - 1) = FV.nan) :
    st_finalLower lb cl i = FV.nan := by
  rw [st_finalLower, hnan]
  simp

theorem st_finalUpper_nan (ub cl : ℕ → FV) (i : ℕ) (hnan : ub (i - 1) = FV.nan) :
    st_finalUpper ub cl i = FV.nan := by
  rw [st_finalUpper, hnan]
  simp

theorem st_finalLower_mem (lb cl : ℕ → FV) (i : ℕ) :
    st_finalLower lb cl i = lb i ∨ st_finalLower lb cl i = lb (i - 1) := by
  rw [st_finalLower]
  split
  · exact Or.inl rfl
  · exact Or.inr rfl

theorem st_finalUpper_mem (ub cl : ℕ → FV) (i : ℕ) :
    st_finalUpper ub cl i = ub i ∨ st_finalUpper ub cl i = ub (i - 1) := by
  rw [st_finalUpper]
  split
  · exact Or.inl rfl
  · exact Or.inr rfl

/-- C10: for every price frame, the supertrend column (period 10,
multiplier 3, as `calculate_all_indicators` invokes it) is NaN at every
index `i ≤ 10` — including the index-0 "seed" `upper_band[0]`, which is
itself NaN — and from index 11 on it is a finite value equal to one of
the four raw band cells `upper/lower` at `i` or `i-1`; the cause is
recorded alongside: the row-0 true range is NaN (no previous close) and
the period-10 ATR stays NaN through index 9. -/
theorem supertrend_nan_head (df : List PriceRow) (i : ℕ) (hn : i < df.length) :
    (i ≤ 10 →
      (calculate_supertrend (highs df) (lows df) (closes df) 10 3).getD i FV.nan = FV.nan)
    ∧ (11 ≤ i →
      isFin ((calculate_supertrend (highs df) (lows df) (closes df) 10 3).getD i FV.nan)
        = true
      ∧ ((calculate_supertrend (highs df) (lows df) (closes df) 10 3).getD i FV.nan = ubOf df i
        ∨ (calculate_supertrend (highs df) (lows df) (closes df) 10 3).getD i FV.nan = ubOf df (i - 1)
        ∨ (calculate_supertrend (highs df) (lows df) (closes df) 10 3).getD i FV.nan = lbOf df i
        ∨ (calculate_supertrend (highs df) (lows df) (closes df) 10 3).getD i FV.nan = lbOf df (i - 1)))
    ∧ trAt (seriesOf (highs df)) (seriesOf (lows df)) (seriesOf (closes df)) 0 = FV.nan
    ∧ (i ≤ 9 →
      atrAt (seriesOf (highs df)) (seriesOf (lows df)) (seriesOf (closes df)) 10 i = FV.nan) := by
  have hgd : (calculate_supertrend (highs df) (lows df) (closes df) 10 3).getD i FV.nan
      = st_valueAt (ubOf df) (lbOf df) (seriesOf (closes df)) i := by
    rw [calculate_supertrend, getD_range_map]
    have hlen : i < (closes df).length := by simpa [closes] using hn
    rw [if_pos hlen]
    rfl
  refine ⟨fun h10 => ?_, fun h11 => ?_, trAt_zero _ _ _, fun h9 => atrAt_nan _ _ _ i h9⟩
  · rw [hgd]
    rcases Nat.eq_zero_or_pos i with rfl | hpos
    · rw [st_valueAt, if_pos rfl]
      exact ubOf_nan df 0 (by omega)
    · rw [st_valueAt, if_neg (by omega)]
      have hub : ubOf df (i - 1) = FV.nan := ubOf_nan df (i - 1) (by omega)
      have hlb : lbOf df (i - 1) = FV.nan := lbOf_nan df (i - 1) (by omega)
      by_cases htr : st_trend (ubOf df) (lbOf df) (seriesOf (closes df)) i = 1
      · rw [if_pos htr]
        exact st_finalLower_nan _ _ i hlb
      · rw [if_neg htr]
        exact st_finalUpper_nan _ _ i hub
  · rw [hgd, st_valueAt, if_neg (by omega)]
    have hubi := ubOf_isFin df i (by omega) hn
    have hubp := ubOf_isFin df (i - 1) (by omega) (by omega)
    have hlbi := lbOf_isFin df i (by omega) hn
    have hlbp := lbOf_isFin df (i - 1) (by omega) (by omega)
    by_cases htr : st_trend (ubOf df) (lbOf df) (seriesOf (closes df)) i = 1
    · rw [if_pos htr]
      rcases st_finalLower_mem (lbOf df) (seriesOf (closes df)) i with hm | hm <;> rw [hm]
      · exact ⟨hlbi, Or.inr (Or.inr (Or.inl rfl))⟩
      · exact ⟨hlbp, Or.inr (Or.inr (Or.inr rfl))⟩
    · rw [if_neg htr]
      rcases st_finalUpper_mem (ubOf df) (seriesOf (closes df)) i with hm | hm <;> rw [hm]
      · exact ⟨hubi, Or.inl rfl⟩
      · exact ⟨hubp, Or.inr (Or.inl rfl)⟩

/-- A 13-row constant price frame for the C10 witness. -/
def nanPrefixDf : List PriceRow :=
  (List.range 13).map (fun i => ⟨['N'], (i : ℤ), 5, 6, 4, 5, 50⟩)

/-- Witness for C10: on the 13-row frame, the supertrend cell at index 10
is NaN and the cell at index 11 is finite. -/
theorem supertrend_nan_head_witness :
    (10 < nanPrefixDf.length ∧
      (calculate_supertrend (highs nanPrefixDf) (lows nanPrefixDf) (closes nanPrefixDf)
        10 3).getD 10 FV.nan = FV.nan)
    ∧ (11 < nanPrefixDf.length ∧
      isFin ((calculate_supertrend (highs nanPrefixDf) (lows nanPrefixDf)
        (closes nanPrefixDf) 10 3).getD 11 FV.nan) = true) :=
  ⟨⟨by decide, (supertrend_nan_head nanPrefixDf 10 (by decide)).1 (by decide)⟩,
   ⟨by decide, ((supertrend_nan_head nanPrefixDf 11 (by decide)).2.1 (by decide)).1⟩⟩

/-! ### Result-sink lemmas (keyed upsert semantics) -/

theorem find?_map_keep {α : Type _} (p : α → Bool) (f : α → α) (s : List α)
    (h : ∀ x ∈ s, p (f x) = p x ∧ (p x = true → f x = x)) :
    (s.map f).find? p = s.find? p := by
  induction s with
  | nil => rfl
  | cons x s ih =>
    rw [List.map_cons]
    by_cases hp : p x = true
    · rw [List.find?_cons_of_pos _ (by rw [(h x (List.mem_cons_self x s)).1]; exact hp),
        List.find?_cons_of_pos _ hp, (h x (List.mem_cons_self x s)).2 hp]
    · rw [List.find?_cons_of_neg _ (by rw [(h x (List.mem_cons_self x s)).1]; simpa using hp),
        List.find?_cons_of_neg _ (by simpa using hp)]
      exact ih (fun y hy => h y (List.mem_cons_of_mem x hy))

theorem find?_map_overwrite (s : List IndRow) (r : IndRow)
    (hany : (s.any (fun x => decide (x.ticker = r.ticker ∧ x.date = r.date))) = true) :
    ((s.map (fun x => if x.ticker = r.ticker ∧ x.date = r.date then r else x)).find?
      (fun x => decide (x.ticker = r.ticker ∧ x.date = r.date))) = some r := by
  induction s with
  | nil => simp at hany
  | cons x s ih =>
    rw [List.map_cons]
    by_cases hx : x.ticker = r.ticker ∧ x.date = r.date
    · rw [if_pos hx, List.find?_cons_of_pos _ (by simp)]
    · rw [if_neg hx, List.find?_cons_of_neg _ (by simpa using hx)]
      refine ih ?_
      rcases List.any_eq_true.mp hany with ⟨y, hy, hpy⟩
      rcases List.mem_cons.mp hy with rfl | hy'
      · exact absurd (of_decide_eq_true hpy) hx
      · exact List.any_eq_true.mpr ⟨y, hy', hpy⟩

/-- After upserting `r`, the store holds exactly `r` at `r`'s key. -/
theorem lookupRow_upsertRow_same (s : List IndRow) (r : IndRow) :
    lookupRow (upsertRow s r) r.ticker r.date = some r := by
  rw [upsertRow]
  by_cases hany : (s.any (fun x => decide (x.ticker = r.ticker ∧ x.date = r.date))) = true
  · rw [if_pos hany]
    exact find?_map_overwrite s r hany
  · rw [if_neg hany, lookupRow, List.find?_append]
    have hnone : s.find? (fun x => decide (x.ticker = r.ticker ∧ x.date = r.date)) = none := by
      rw [List.find?_eq_none]
      intro x hx hpx
      exact hany (List.any_eq_true.mpr ⟨x, hx, hpx⟩)
    rw [hnone]
    simp [List.find?]

/-- Upserting `r` leaves every other key's row untouched. -/
theorem lookupRow_upsertRow_other (s : List IndRow) (r : IndRow) (t : List Char) (d : ℤ)
    (hk : ¬(t = r.ticker ∧ d = r.date)) :
    lookupRow (upsertRow s r) t d = lookupRow s t d := by
  have hpr : (decide (r.ticker = t ∧ r.date = d)) = false := by
    simp only [decide_eq_false_iff_not]
    rintro ⟨h1, h2⟩
    exact hk ⟨h1.symm, h2.symm⟩
  rw [upsertRow]
  by_cases hany : (s.any (fun x => decide (x.ticker = r.ticker ∧ x.date = r.date))) = true
  · rw [if_pos hany, lookupRow, lookupRow]
    refine find?_map_keep _ _ s (fun x hx => ⟨?_, fun hpx => ?_⟩)
    · by_cases hxk : x.ticker = r.ticker ∧ x.date = r.date
      · rw [if_pos hxk]
        simp [hxk.1, hxk.2]
      · rw [if_neg hxk]
    · rw [if_neg]
      rintro ⟨h1, h2⟩
      obtain ⟨hxt, hxd⟩ := of_decide_eq_true hpx
      exact hk ⟨hxt ▸ h1 ▸ rfl, hxd ▸ h2 ▸ rfl⟩
  · rw [if_neg hany, lookupRow, lookupRow, List.find?_append]
    simp [List.find?, hpr]

theorem hasRow_upsertRow (s : List IndRow) (r : IndRow) (t : List Char) (d : ℤ) :
    hasRow (upsertRow s r) t d = (hasRow s t d || decide (r.ticker = t ∧ r.date = d)) := by
  by_cases hk : t = r.ticker ∧ d = r.date
  · obtain ⟨rfl, rfl⟩ := hk
    rw [hasRow, lookupRow_upsertRow_same]
    simp
  · have hpr : (decide (r.ticker = t ∧ r.date = d)) = false := by
      simp only [decide_eq_false_iff_not]
      rintro ⟨h1, h2⟩
      exact hk ⟨h1.symm, h2.symm⟩
    rw [hasRow, lookupRow_upsertRow_other s r t d hk, hasRow, hpr, Bool.or_false]

/-- Keys present after a batch of upserts: the old keys plus the batch's. -/
theorem hasRow_upsertAll (rows : List IndRow) (s : List IndRow) (t : List Char) (d : ℤ) :
    hasRow (rows.foldl upsertRow s) t d = true ↔
      (hasRow s t d = true ∨ ∃ r ∈ rows, r.ticker = t ∧ r.date = d) := by
  induction rows generalizing s with
  | nil => simp
  | cons r rows ih =>
    rw [List.foldl_cons, ih (upsertRow s r), hasRow_upsertRow]
    simp only [Bool.or_eq_true, decide_eq_true_eq, List.mem_cons]
    constructor
    · rintro ((h | h) | ⟨r', hr', hk⟩)
      · exact Or.inl h
      · exact Or.inr ⟨r, Or.inl rfl, h⟩
      · exact Or.inr ⟨r', Or.inr hr', hk⟩
    · rintro (h | ⟨r', (rfl | hr'), hk⟩)
      · exact Or.inl (Or.inl h)
      · exact Or.inl (Or.inr hk)
      · exact Or.inr ⟨r', hr', hk⟩

/-- A batch of upserts never rewrites a key outside the batch. -/
theorem lookupRow_upsertAll_untouched (rows : List IndRow) (s : List IndRow)
    (t : List Char) (d : ℤ) (h : ∀ r ∈ rows, ¬(t = r.ticker ∧ d = r.date)) :
    lookupRow (rows.foldl upsertRow s) t d = lookupRow s t d := by
  induction rows generalizing s with
  | nil => rfl
  | cons r rows ih =>
    rw [List.foldl_cons, ih (upsertRow s r) (fun y hy => h y (List.mem_cons_of_mem r hy)),
      lookupRow_upsertRow_other s r t d (h r (List.mem_cons_self r rows))]

/-- Shape of the rows built by `create_indicators_dataframe`: normalized
ticker, dates taken from the price index. -/
theorem create_row_shape (df : List PriceRow) (symbol : List Char) (r : IndRow)
    (hr : r ∈ create_indicators_dataframe df symbol) :
    r.ticker = writer_ticker symbol ∧ ∃ p ∈ df, r.date = p.date := by
  rw [create_indicators_dataframe] at hr
  obtain ⟨i, hir, rfl⟩ := List.mem_map.mp hr
  have hi : i < df.length := List.mem_range.mp hir
  refine ⟨rfl, df.getD i default, ?_, rfl⟩
  rw [List.getD_eq_getElem df default hi]
  exact List.getElem_mem hi

/-- Every price row yields an output row with its date. -/
theorem create_row_cover (df : List PriceRow) (symbol : List Char) (p : PriceRow)
    (hp : p ∈ df) :
    ∃ r ∈ create_indicators_dataframe df symbol,
      r.ticker = writer_ticker symbol ∧ r.date = p.date := by
  obtain ⟨i, hi, rfl⟩ := List.mem_iff_getElem.mp hp
  rw [create_indicators_dataframe]
  refine ⟨_, List.mem_map.mpr ⟨i, List.mem_range.mpr hi, rfl⟩, rfl, ?_⟩
  show (df.getD i default).date = df[i].date
  rw [List.getD_eq_getElem df default hi]

theorem create_length (df : List PriceRow) (symbol : List Char) :
    (create_indicators_dataframe df symbol).length = df.length := by
  rw [create_indicators_dataframe]
  simp

/-! ### Sync-controller lemmas -/

/-- `process_single_symbol` with an existing cursor at date `D`: fetch
from the warmup date `D + 1 - 300`, compute, slice at `D + 1`, upsert. -/
theorem process_with_cursor (dbUpdate : Bool) (table : List PriceRow)
    (store : List IndRow) (symbol : List Char) (D : ℤ) (fail : Bool)
    (hcur : get_latest_indicators_date store symbol = some D) :
    process_single_symbol dbUpdate table store symbol fail
      = (if (fetch_price_data_from_db table symbol (some (D + 1 - 300))).isEmpty
          then (store, false)
         else if (create_indicators_dataframe
            (fetch_price_data_from_db table symbol (some (D + 1 - 300))) symbol).isEmpty
          then (store, false)
         else if ((create_indicators_dataframe
            (fetch_price_data_from_db table symbol (some (D + 1 - 300))) symbol).filter
              (fun r => decide (D + 1 ≤ r.date))).isEmpty
          then (store, true)
         else upsert_indicators_data dbUpdate store
           ((create_indicators_dataframe
             (fetch_price_data_from_db table symbol (some (D + 1 - 300))) symbol).filter
               (fun r => decide (D + 1 ≤ r.date))) fail) := by
  rw [process_single_symbol, hcur]
  rfl

/-- `process_single_symbol` on a cold start (no cursor): fetch the whole
history, compute, upsert everything without slicing. -/
theorem process_no_cursor (dbUpdate : Bool) (table : List PriceRow)
    (store : List IndRow) (symbol : List Char) (fail : Bool)
    (hcur : get_latest_indicators_date store symbol = none) :
    process_single_symbol dbUpdate table store symbol fail
      = (if (fetch_price_data_from_db table symbol none).isEmpty then (store, false)
         else if (create_indicators_dataframe
            (fetch_price_data_from_db table symbol none) symbol).isEmpty then (store, false)
         else upsert_indicators_data dbUpdate store
           (create_indicators_dataframe (fetch_price_data_from_db table symbol none) symbol)
           fail) := by
  rw [process_single_symbol, hcur]
  rfl

theorem mem_fetch (table : List PriceRow) (symbol : List Char) (s : ℤ) (p : PriceRow) :
    p ∈ fetch_price_data_from_db table symbol (some s) ↔
      p ∈ table ∧ p.ticker = normalize_symbol symbol ∧ s ≤ p.date := by
  rw [fetch_price_data_from_db]
  simp [List.mem_filter, and_assoc]

/-! ### C2 — Incremental slicing law -/

/-- C2: with the cursor at date `D` and a healthy sink, the incremental
run of `process_single_symbol` computes over the whole fetched warmup
window but upserts only rows with `date ≥ D + 1`: afterwards the set of
persisted dates for the symbol's store key equals the prior set unioned
with the symbol's price dates strictly after `D`, and no stored row of
any key with `date ≤ D` is rewritten. -/
theorem incremental_slicing_law (table : List PriceRow) (store : List IndRow)
    (symbol : List Char) (D : ℤ)
    (hcur : get_latest_indicators_date store symbol = some D) :
    (∀ d : ℤ,
      hasRow (process_single_symbol true table store symbol false).1
          (normalize_symbol symbol) d = true ↔
        (hasRow store (normalize_symbol symbol) d = true ∨
          ∃ p ∈ table, p.ticker = normalize_symbol symbol ∧ p.date = d ∧ D < d))
    ∧ (∀ (t : List Char) (d : ℤ), d ≤ D →
        lookupRow (process_single_symbol true table store symbol false).1 t d
          = lookupRow store t d) := by
  rw [process_with_cursor true table store symbol D false hcur]
  set pd := fetch_price_data_from_db table symbol (some (D + 1 - 300)) with hpd
  set rows := create_indicators_dataframe pd symbol with hrows
  set sliced := rows.filter (fun r => decide (D + 1 ≤ r.date)) with hsliced
  have hnew : ∀ d : ℤ,
      (∃ r ∈ sliced, r.ticker = normalize_symbol symbol ∧ r.date = d) ↔
        (∃ p ∈ table, p.ticker = normalize_symbol symbol ∧ p.date = d ∧ D < d) := by
    intro d
    constructor
    · rintro ⟨r, hr, htick, rfl⟩
      obtain ⟨hrrows, hrd⟩ := List.mem_filter.mp hr
      obtain ⟨-, p, hppd, hdate⟩ := create_row_shape pd symbol r hrrows
      obtain ⟨hptable, hptick, -⟩ := (mem_fetch table symbol _ p).mp hppd
      exact ⟨p, hptable, hptick, hdate.symm, by
        have := of_decide_eq_true hrd
        omega⟩
    · rintro ⟨p, hptable, hptick, rfl, hgt⟩
      have hppd : p ∈ pd := (mem_fetch table symbol _ p).mpr ⟨hptable, hptick, by omega⟩
      obtain ⟨r, hrrows, htick, hrdate⟩ := create_row_cover pd symbol p hppd
      refine ⟨r, List.mem_filter.mpr ⟨hrrows, decide_eq_true (by omega)⟩, htick, hrdate⟩
  by_cases h1 : pd.isEmpty
  · rw [if_pos h1]
    have hnop : ∀ d : ℤ,
        ¬∃ p ∈ table, p.ticker = normalize_symbol symbol ∧ p.date = d ∧ D < d := by
      rintro d ⟨p, hptable, hptick, rfl, hgt⟩
      have hpm : p ∈ pd := (mem_fetch table symbol _ p).mpr ⟨hptable, hptick, by omega⟩
      rw [List.isEmpty_iff.mp h1] at hpm
      exact absurd hpm (List.not_mem_nil p)
    refine ⟨fun d => ⟨Or.inl, ?_⟩, fun t d _ => rfl⟩
    rintro (h | h)
    · exact h
    · exact absurd h (hnop d)
  · rw [if_neg h1]
    have hpdne : pd ≠ [] := fun h => h1 (by rw [h]; rfl)
    have h2 : ¬rows.isEmpty = true := by
      intro h
      have hnil : rows = [] := List.isEmpty_iff.mp h
      have hlen := create_length pd symbol
      rw [← hrows, hnil] at hlen
      exact hpdne (List.length_eq_zero.mp hlen.symm)
    rw [if_neg h2]
    by_cases h3 : sliced.isEmpty
    · rw [if_pos h3]
      refine ⟨fun d => ⟨Or.inl, ?_⟩, fun t d _ => rfl⟩
      rintro (h | h)
      · exact h
      · obtain ⟨r, hr, -⟩ := (hnew d).mpr h
        rw [List.isEmpty_iff.mp h3] at hr
        exact absurd hr (List.not_mem_nil r)
    · rw [if_neg h3]
      have hup : upsert_indicators_data true store sliced false
          = (sliced.foldl upsertRow store, true) := by
        rw [upsert_indicators_data, if_neg (by simp), if_neg h3, if_neg (by simp)]
      rw [hup]
      constructor
      · intro d
        show hasRow (sliced.foldl upsertRow store) (normalize_symbol symbol) d = true ↔ _
        rw [hasRow_upsertAll]
        exact or_congr Iff.rfl (hnew d)
      · intro t d hd
        show lookupRow (sliced.foldl upsertRow store) t d = lookupRow store t d
        refine lookupRow_upsertAll_untouched sliced store t d (fun r hr => ?_)
        rintro ⟨-, hdate⟩
        have hge := of_decide_eq_true (List.mem_filter.mp hr).2
        omega

/-- A two-row price table and a one-row store for the C2/C5 witnesses:
ticker `A`, prices on days 9, 10 and 11, indicators stored through day
10. -/
def witTable : List PriceRow :=
  [⟨['A'], 9, 1, 2, 1, 2, 10⟩, ⟨['A'], 10, 2, 3, 2, 3, 10⟩, ⟨['A'], 11, 3, 4, 3, 4, 10⟩]

/-- The witness store: one indicator row for ticker `A` at day 10. -/
def witStore : List IndRow := [⟨['A'], 10, []⟩]

/-- Witness for C2: with the cursor at day 10, a stored row at day 9 is
not rewritten by the incremental run. -/
theorem incremental_slicing_law_witness :
    get_latest_indicators_date witStore ['A'] = some 10 ∧
      lookupRow (process_single_symbol true witTable witStore ['A'] false).1 ['A'] 9
        = lookupRow witStore ['A'] 9 :=
  ⟨by decide,
   (incremental_slicing_law witTable witStore ['A'] 10 (by decide)).2 ['A'] 9 (by decide)⟩

/-! ### C5 — Incremental idempotence / NoNewData -/

/-- C5: when the price source has no rows dated after the symbol's cursor
`D` (and, per the store invariant, still holds the cursor-day price row
itself, so the warmup fetch is non-empty), an incremental run reports the
symbol as up-to-date — success, not error — and performs no store
mutation at all: the NoNewData outcome with zero additional writes. -/
theorem incremental_idempotence (table : List PriceRow) (store : List IndRow)
    (symbol : List Char) (D : ℤ)
    (hcur : get_latest_indicators_date store symbol = some D)
    (hold : ∀ p ∈ table, p.ticker = normalize_symbol symbol → p.date ≤ D)
    (hex : ∃ p ∈ table, p.ticker = normalize_symbol symbol ∧ p.date = D) :
    process_single_symbol true table store symbol false = (store, true) := by
  rw [process_with_cursor true table store symbol D false hcur]
  set pd := fetch_price_data_from_db table symbol (some (D + 1 - 300)) with hpd
  set rows := create_indicators_dataframe pd symbol with hrows
  obtain ⟨p0, hp0t, hp0tick, hp0d⟩ := hex
  have hp0 : p0 ∈ pd := (mem_fetch table symbol _ p0).mpr ⟨hp0t, hp0tick, by omega⟩
  have h1 : ¬pd.isEmpty = true := by
    intro h
    rw [List.isEmpty_iff.mp h] at hp0
    exact absurd hp0 (List.not_mem_nil p0)
  have hpdne : pd ≠ [] := fun h => h1 (by rw [h]; rfl)
  have h2 : ¬rows.isEmpty = true := by
    intro h
    have hnil : rows = [] := List.isEmpty_iff.mp h
    have hlen := create_length pd symbol
    rw [← hrows, hnil] at hlen
    exact hpdne (List.length_eq_zero.mp hlen.symm)
  have h3 : (rows.filter (fun r => decide (D + 1 ≤ r.date))).isEmpty = true := by
    refine List.isEmpty_iff.mpr (List.filter_eq_nil_iff.mpr ?_)
    intro r hr
    obtain ⟨-, p, hppd, hdate⟩ := create_row_shape pd symbol r hr
    obtain ⟨hptable, hptick, -⟩ := (mem_fetch table symbol _ p).mp hppd
    have hple := hold p hptable hptick
    simp only [decide_eq_true_eq]
    omega
  rw [if_neg h1, if_neg h2, if_pos h3]

/-- The C5 witness's price table: ticker `A`, prices on days 9 and 10
only — nothing after the cursor. -/
def witTable5 : List PriceRow :=
  [⟨['A'], 9, 1, 2, 1, 2, 10⟩, ⟨['A'], 10, 2, 3, 2, 3, 10⟩]

/-- Witness for C5: with the cursor at day 10 and no newer prices, the
incremental run returns the untouched store with success. -/
theorem incremental_idempotence_witness :
    get_latest_indicators_date witStore ['A'] = some 10 ∧
      (∀ p ∈ witTable5, p.ticker = normalize_symbol ['A'] → p.date ≤ 10) ∧
      (∃ p ∈ witTable5, p.ticker = normalize_symbol ['A'] ∧ p.date = 10) ∧
      process_single_symbol true witTable5 witStore ['A'] false = (witStore, true) :=
  ⟨by decide, by decide, by decide,
   incremental_idempotence witTable5 witStore ['A'] 10 (by decide) (by decide) (by decide)⟩

/-! ### C8 — Upsert atomicity and failure isolation -/

/-- A failed sink write leaves the store exactly as it was: the batch
runs in one transaction and the exception path rolls it back. -/
theorem upsert_fail_fst (dbUpdate : Bool) (store rows : List IndRow) :
    (upsert_indicators_data dbUpdate store rows true).1 = store := by
  rw [upsert_indicators_data]
  by_cases h1 : dbUpdate = false
  · rw [if_pos h1]
  · rw [if_neg h1]
    by_cases h2 : rows.isEmpty = true
    · rw [if_pos h2]
    · rw [if_neg h2, if_pos rfl]

/-- A symbol whose sink write fails leaves the store unchanged on every
path of `process_single_symbol`. -/
theorem process_fail_fst (dbUpdate : Bool) (table : List PriceRow)
    (store : List IndRow) (symbol : List Char) :
    (process_single_symbol dbUpdate table store symbol true).1 = store := by
  rcases hc : get_latest_indicators_date store symbol with _ | D
  · rw [process_no_cursor dbUpdate table store symbol true hc]
    split_ifs
    · rfl
    · rfl
    · exact upsert_fail_fst dbUpdate store _
  · rw [process_with_cursor dbUpdate table store symbol D true hc]
    split_ifs
    · rfl
    · rfl
    · rfl
    · exact upsert_fail_fst dbUpdate store _

theorem update_step_fst (dbUpdate : Bool) (table : List PriceRow)
    (acc : List IndRow × ℕ × ℕ) (job : List Char × Bool) :
    (update_step dbUpdate table acc job).1
      = (process_single_symbol dbUpdate table acc.1 job.1 job.2).1 := by
  rw [update_step]
  split <;> rfl

theorem update_foldl_fst (dbUpdate : Bool) (table : List PriceRow)
    (jobs : List (List Char × Bool)) :
    ∀ (st : List IndRow) (a b a' b' : ℕ),
      (jobs.foldl (update_step dbUpdate table) (st, a, b)).1
        = (jobs.foldl (update_step dbUpdate table) (st, a', b')).1 := by
  induction jobs with
  | nil => intro st a b a' b'; rfl
  | cons j jobs ih =>
    intro st a b a' b'
    rw [List.foldl_cons, List.foldl_cons]
    rcases e1 : update_step dbUpdate table (st, a, b) j with ⟨s1, a1, b1⟩
    rcases e2 : update_step dbUpdate table (st, a', b') j with ⟨s2, a2, b2⟩
    have h1 := update_step_fst dbUpdate table (st, a, b) j
    have h2 := update_step_fst dbUpdate table (st, a', b') j
    rw [e1] at h1
    rw [e2] at h2
    have hs : s1 = s2 := h1.trans h2.symm
    rw [hs]
    exact ih s2 a1 b1 a2 b2

theorem update_foldl_counts (dbUpdate : Bool) (table : List PriceRow)
    (jobs : List (List Char × Bool)) :
    ∀ (st : List IndRow) (a b : ℕ),
      (jobs.foldl (update_step dbUpdate table) (st, a, b)).2.1
        + (jobs.foldl (update_step dbUpdate table) (st, a, b)).2.2
        = a + b + jobs.length := by
  induction jobs with
  | nil => intro st a b; simp
  | cons j jobs ih =>
    intro st a b
    rw [List.foldl_cons]
    rcases e : update_step dbUpdate table (st, a, b) j with ⟨s1, a1, b1⟩
    have hab : a1 + b1 = a + b + 1 := by
      rw [update_step] at e
      split at e <;> simp only [Prod.ext_iff] at e <;> omega
    rw [ih s1 a1 b1, List.length_cons]
    omega

/-- C8: the per-symbol batch is atomic and failures are isolated —
(1) a sink failure on a non-empty batch is surfaced as an error and
persists nothing (the single transaction rolls back, so no partial rows
remain); (2) on every path, a symbol processed with a failing sink
leaves the store exactly as it was; (3) a failing symbol at the head of
a batch run leaves the final store of the remaining symbols' run
unchanged — it neither blocks nor aborts the others; (4) every job of a
batch run is counted exactly once as success or error. -/
theorem upsert_atomicity_and_isolation :
    (∀ (store : List IndRow) (r : IndRow) (rows : List IndRow),
      upsert_indicators_data true store (r :: rows) true = (store, false))
    ∧ (∀ (dbUpdate : Bool) (table : List PriceRow) (store : List IndRow)
        (symbol : List Char),
        (process_single_symbol dbUpdate table store symbol true).1 = store)
    ∧ (∀ (dbUpdate : Bool) (table : List PriceRow) (store : List IndRow)
        (hd : List Char) (rest : List (List Char × Bool)),
        (update_all_symbols dbUpdate table store ((hd, true) :: rest)).1
          = (update_all_symbols dbUpdate table store rest).1)
    ∧ (∀ (dbUpdate : Bool) (table : List PriceRow) (store : List IndRow)
        (jobs : List (List Char × Bool)),
        (update_all_symbols dbUpdate table store jobs).2.1
          + (update_all_symbols dbUpdate table store jobs).2.2 = jobs.length) := by
  refine ⟨fun store r rows => ?_, process_fail_fst,
    fun dbU table store hd rest => ?_, fun dbU table store jobs => ?_⟩
  · rw [upsert_indicators_data, if_neg (by simp), if_neg (by simp), if_pos rfl]
  · rw [update_all_symbols, update_all_symbols, List.foldl_cons]
    rcases e : update_step dbU table (store, 0, 0) (hd, true) with ⟨s1, a1, b1⟩
    have h1 := update_step_fst dbU table (store, 0, 0) (hd, true)
    rw [e] at h1
    have hs : s1 = store := h1.trans (process_fail_fst dbU table store hd)
    rw [hs]
    exact update_foldl_fst dbU table rest store a1 b1 0 0
  · rw [update_all_symbols]
    simpa using update_foldl_counts dbU table jobs store 0 0

end TradeSetup
